import Mathlib

/-!
# Verification of the macro-gate detection and graph-construction pipeline

Shallow embedding, in Lean 4, of the algorithmic core of the repository
(`Quilt/macro_gate_detector/macro_gate_detector.py` and
`circuit_json_processing/circuit_json_parsing.py`):

* parameter-aware pattern hashing (`MacroGateDetector.hash_sequence`),
* repeated-window detection (`MacroGateDetector.detect_patterns`),
* greedy non-overlapping selection (`MacroGateDetector.find_non_overlapping_macros`),
* semantic labelling (`SemanticLabeler.match_known_pattern` and its analysis helpers),
* the layered dependency-graph builder (`convert_to_app_circuit_format`).

Python dictionaries (which preserve insertion order) are modelled as ordered
association lists, Python's stable `sorted(..., reverse=True)` as a stable
insertion sort with the corresponding "greater-or-equal key" comparator, and
the MD5 content hash as the normalized operation list itself (so hash equality
is equality of the canonical normalized form; MD5 collisions are not modelled).
Qubit identifiers are the strings produced upstream by `extract_qubit_index`.
-/

/-! ## Generic helpers: ordered association lists and a stable sort -/

/-- Lookup in an ordered association list (Python `dict` access). -/
def alookup {κ ν : Type} [DecidableEq κ] : List (κ × ν) → κ → Option ν
  | [], _ => none
  | (k, v) :: ps, k' => if k = k' then some v else alookup ps k'

/-- Update/insert in an ordered association list (Python `dict[k] = v`):
an existing key keeps its place, a new key is appended at the end. -/
def aupdate {κ ν : Type} [DecidableEq κ] : List (κ × ν) → κ → ν → List (κ × ν)
  | [], k, v => [(k, v)]
  | (k', v') :: ps, k, v =>
    if k' = k then (k', v) :: ps else (k', v') :: aupdate ps k v

/-- Insert `x` into `l`, placing it directly before the first element `y`
with `le x y`.  Building block of the stable sort below. -/
def insertLe {α : Type} (le : α → α → Bool) (x : α) : List α → List α
  | [] => [x]
  | y :: ys => if le x y then x :: y :: ys else y :: insertLe le x ys

/-- Stable insertion sort: the unique stable sort for a total preorder `le`,
hence extensionally equal to Python's stable `list.sort`. -/
def sortLe {α : Type} (le : α → α → Bool) : List α → List α
  | [] => []
  | x :: xs => insertLe le x (sortLe le xs)

/-- "Greater or equal" on integer pairs ordered lexicographically; used as the
before-or-equal relation of a stable descending sort, which reproduces
Python's `sorted(..., key=..., reverse=True)`. -/
def keyGe (a b : Int × Int) : Bool :=
  decide (b.1 < a.1) || (decide (a.1 = b.1) && decide (b.2 ≤ a.2))

/-- Python `sorted(l, key=key, reverse=True)` for a lexicographic pair key. -/
def sortDescBy {α : Type} (key : α → Int × Int) (l : List α) : List α :=
  sortLe (fun a b => keyGe (key a) (key b)) l

/-! ## Operations and the pattern hash (`hash_sequence`) -/

/-- One flat circuit operation `(gate_name, qubits, params)` as produced by
`extract_operations_from_dag`: the gate name, the ordered tuple of qubit
identifier strings, and the normalized (rounded/stringified) parameters. -/
structure Op where
  name : String
  qubits : List String
  params : List String
  deriving DecidableEq, Repr

/-- Comparison of characters by code point (Python's string ordering). -/
def charListLe : List Char → List Char → Bool
  | [], _ => true
  | _ :: _, [] => false
  | c :: cs, d :: ds =>
    if c.toNat < d.toNat then true
    else if d.toNat < c.toNat then false
    else charListLe cs ds

/-- Python `<=` on strings: lexicographic by code point. -/
def strLe (a b : String) : Bool := charListLe a.data b.data

/-- Python `sorted` on a list of qubit identifier strings. -/
def sortQubits (qs : List String) : List String := sortLe strLe qs

/-- A normalized operation `(gate_name, tuple(sorted(qubits)), tuple(params))`
as built inside `hash_sequence`. -/
structure NormOp where
  name : String
  qubits : List String
  params : List String
  deriving DecidableEq, Repr

/-- Normalization of one operation inside `hash_sequence`: the qubit tuple is
sorted, the parameters are kept in order. -/
def normalizeOp (o : Op) : NormOp :=
  { name := o.name, qubits := sortQubits o.qubits, params := o.params }

/-- The pattern hash is determined by (and, collisions aside, determines) the
normalized operation list, so we model it as that list itself. -/
abbrev PatternHash := List NormOp

/-- `MacroGateDetector.hash_sequence`: hash of a window, modelling
`md5(str(normalized))` by the normalized list `normalized` itself. -/
def hashSequence (seq : List Op) : PatternHash := seq.map normalizeOp

/-- A relabelling of qubit identifiers applied to a window of operations
(gate names and parameters are kept, every qubit `q` becomes `f q`).
Used to state the spec's claim that the hash is qubit-identity-agnostic. -/
def relabelOps (f : String → String) (seq : List Op) : List Op :=
  seq.map fun o => { o with qubits := o.qubits.map f }

/-! ## Repeated-window detection (`detect_patterns`) -/

/-- Python slice `ops[s:e]`. -/
def opsSlice (ops : List Op) (s e : Nat) : List Op := (ops.drop s).take (e - s)

/-- The value grouped per pattern hash inside `detect_patterns`. -/
structure PatternInfo where
  sequence : List Op
  positions : List (Nat × Nat)
  windowSize : Nat
  count : Nat
  deriving DecidableEq, Repr

/-- `detect_patterns`' result: the ordered dictionary hash → pattern group. -/
abbrev Patterns := List (PatternHash × PatternInfo)

/-- Append a position to the group of its hash (creating the group at the end
of the dictionary if absent); models `window_patterns[pattern_hash].append`. -/
def groupAppend (acc : List (PatternHash × List (Nat × Nat)))
    (h : PatternHash) (pos : Nat × Nat) :
    List (PatternHash × List (Nat × Nat)) :=
  match acc with
  | [] => [(h, [pos])]
  | (k, ps) :: rest =>
    if k = h then (k, ps ++ [pos]) :: rest else (k, ps) :: groupAppend rest h pos

/-- The inner loop of `detect_patterns` for one window size: hash every window
of size `w` and group the half-open position ranges by hash. -/
def windowPatterns (ops : List Op) (w : Nat) :
    List (PatternHash × List (Nat × Nat)) :=
  (List.range (ops.length - w + 1)).foldl
    (fun acc i => groupAppend acc (hashSequence (opsSlice ops i (i + w))) (i, i + w))
    []

/-- Folding one window size's groups into `all_patterns`: keep groups meeting
the repetition threshold and whose hash was not already recorded. -/
def addWindowSize (minReps : Nat) (ops : List Op)
    (allPatterns : Patterns) (w : Nat) : Patterns :=
  (windowPatterns ops w).foldl
    (fun acc kv =>
      if minReps ≤ kv.2.length then
        if (alookup acc kv.1).isSome then acc
        else
          let p0 := kv.2.headD (0, 0)
          acc ++ [(kv.1,
            { sequence := opsSlice ops p0.1 p0.2
              positions := kv.2
              windowSize := w
              count := kv.2.length })]
      else acc)
    allPatterns

/-- `MacroGateDetector.detect_patterns`: for every window size from 2 to
`min(max_window_size, len(ops) // 2)`, group repeated windows by hash, then
sort the resulting dictionary descending by `(count, window_size)`. -/
def detectPatterns (minReps maxWindowSize : Nat) (ops : List Op) : Patterns :=
  let upper := min (maxWindowSize + 1) (ops.length / 2 + 1)
  let allPatterns := (List.range' 2 (upper - 2)).foldl (addWindowSize minReps ops) []
  sortDescBy (fun kv => ((kv.2.count : Int), (kv.2.windowSize : Int))) allPatterns

/-! ## Greedy non-overlapping selection (`find_non_overlapping_macros`) -/

/-- One flattened macro candidate occurrence. -/
structure Cand where
  hash : PatternHash
  sequence : List Op
  start : Nat
  endPos : Nat
  windowSize : Nat
  size : Int
  deriving DecidableEq, Repr

/-- Flattening of every pattern group's positions into one candidate list. -/
def allMacroCandidates (patterns : Patterns) : List Cand :=
  patterns.flatMap fun kv =>
    kv.2.positions.map fun pos =>
      { hash := kv.1, sequence := kv.2.sequence, start := pos.1, endPos := pos.2
        windowSize := kv.2.windowSize, size := (pos.2 : Int) - (pos.1 : Int) }

/-- The sort key `(x['size'], -x['start'])` of the candidate sort. -/
def candKey (c : Cand) : Int × Int := (c.size, -(c.start : Int))

/-- `all_macro_candidates.sort(key=lambda x: (x['size'], -x['start']),
reverse=True)`. -/
def sortCandidates (cands : List Cand) : List Cand := sortDescBy candKey cands

/-- `ranges_overlap`: two half-open ranges `[s1,e1)`, `[s2,e2)` overlap unless
`e1 <= s2 or e2 <= s1`. -/
def rangesOverlap (s1 e1 s2 e2 : Nat) : Bool :=
  !(decide (e1 ≤ s2) || decide (e2 ≤ s1))

/-- The greedy scan: accept a candidate iff its range overlaps no
already-used range; `sel` and `used` grow in lockstep as in the source. -/
def greedyGo (sel : List Cand) (used : List (Nat × Nat)) : List Cand → List Cand
  | [] => sel
  | c :: cs =>
    if used.any (fun r => rangesOverlap c.start c.endPos r.1 r.2) then
      greedyGo sel used cs
    else
      greedyGo (sel ++ [c]) (used ++ [(c.start, c.endPos)]) cs

/-- Greedy selection of non-overlapping candidates from the sorted list. -/
def greedySelect (cands : List Cand) : List Cand := greedyGo [] [] cands

/-- One entry of `macros_by_hash`. -/
structure GroupInfo where
  hash : PatternHash
  sequence : List Op
  positions : List (Nat × Nat)
  windowSize : Nat
  deriving DecidableEq, Repr

/-- Insert a selected candidate into `macros_by_hash`: the first candidate of
a hash creates the entry (fixing `sequence` and `window_size`), every
candidate appends its position range. -/
def groupInsert : List GroupInfo → Cand → List GroupInfo
  | [], c =>
    [{ hash := c.hash, sequence := c.sequence
       positions := [(c.start, c.endPos)], windowSize := c.windowSize }]
  | g :: gs, c =>
    if g.hash = c.hash then
      { g with positions := g.positions ++ [(c.start, c.endPos)] } :: gs
    else
      g :: groupInsert gs c

/-- Regrouping of the selected candidates by hash, in selection order. -/
def groupByHash (cs : List Cand) : List GroupInfo := cs.foldl groupInsert []

/-- A macro-gate record as returned by `find_non_overlapping_macros`. -/
structure MacroRec where
  hash : PatternHash
  sequence : List Op
  positions : List (Nat × Nat)
  count : Nat
  windowSize : Nat
  deriving DecidableEq, Repr

/-- `MacroGateDetector.find_non_overlapping_macros`: flatten, sort, greedily
select, regroup by hash, re-filter by the repetition threshold and sort the
final list descending by `(count, window_size)`. -/
def findNonOverlappingMacros (minReps : Nat) (patterns : Patterns) : List MacroRec :=
  let selected := greedySelect (sortCandidates (allMacroCandidates patterns))
  let grouped := groupByHash selected
  let out := (grouped.filter fun g => minReps ≤ g.positions.length).map fun g =>
    { hash := g.hash, sequence := g.sequence, positions := g.positions
      count := g.positions.length, windowSize := g.windowSize : MacroRec }
  sortDescBy (fun m => ((m.count : Int), (m.windowSize : Int))) out

/-! ## Semantic labelling (`SemanticLabeler`) -/

/-- Decimal digit value of a character, as in `int(q)` on a digit string. -/
def digitVal (c : Char) : Nat := c.toNat - 48

/-- Python `q.isdigit() and int(q)` on an ASCII-decimal qubit identifier:
`some n` when the string is nonempty and all decimal digits, else `none`
(the analysis helpers skip such qubits). -/
def parseQubit (s : String) : Option Nat :=
  if s.data ≠ [] ∧ s.data.all (·.isDigit) then
    some (s.data.foldl (fun acc c => 10 * acc + digitVal c) 0)
  else none

/-- Insert into a duplicate-free accumulator (Python `set.add`). -/
def insertNew (acc : List Nat) (n : Nat) : List Nat :=
  if n ∈ acc then acc else acc ++ [n]

/-- The set `all_qubits` of `analyze_gate_sequence`: every parsable qubit
index occurring in the sequence, each counted once. -/
def allQubitIndices (seq : List Op) : List Nat :=
  seq.foldl
    (fun acc o =>
      o.qubits.foldl
        (fun acc' q => match parseQubit q with
          | some n => insertNew acc' n
          | none => acc')
        acc)
    []

/-- `analysis['num_qubits']`: the number of distinct parsable qubit indices. -/
def numQubitsOf (seq : List Op) : Nat := (allQubitIndices seq).length

/-- `gate_counts[g]`: occurrences of gate name `g` in the sequence. -/
def countGate (seq : List Op) (g : String) : Nat :=
  (seq.filter (·.name = g)).length

/-- The unordered qubit pairs recorded by `_analyze_connectivity` for one
gate: all `(min, max)` pairs of its parsable qubit indices (for gates acting
on at least two qubit identifiers). -/
def gateConnections (o : Op) : List (Nat × Nat) :=
  if 2 ≤ o.qubits.length then
    let idxs := o.qubits.filterMap parseQubit
    (List.range idxs.length).flatMap fun i =>
      ((List.range idxs.length).filter (fun j => i < j)).map fun j =>
        (min (idxs.getD i 0) (idxs.getD j 0), max (idxs.getD i 0) (idxs.getD j 0))
  else []

/-- `connections`: the multiset of qubit pairs over the whole sequence. -/
def connectionsOf (seq : List Op) : List (Nat × Nat) := seq.flatMap gateConnections

/-- `qubit_degree[q]`: how many connections touch qubit `q` (each connection
contributes to both endpoints, as in the source's per-connection increments). -/
def qubitDegree (conns : List (Nat × Nat)) (q : Nat) : Nat :=
  (conns.filter (·.1 = q)).length + (conns.filter (·.2 = q)).length

/-- The distinct qubits appearing in some connection. -/
def connQubits (conns : List (Nat × Nat)) : List Nat :=
  conns.foldl (fun acc p => insertNew (insertNew acc p.1) p.2) []

/-- `max_degree` over the connection graph (0 when there are no connections). -/
def maxDegree (conns : List (Nat × Nat)) : Nat :=
  (connQubits conns).foldl (fun m q => max m (qubitDegree conns q)) 0

/-- `connectivity['is_linear']`: maximal degree at most 2 with more than two
connected qubits. -/
def isLinear (seq : List Op) : Bool :=
  let conns := connectionsOf seq
  decide (maxDegree conns ≤ 2) && decide (2 < (connQubits conns).length)

/-- The fixed "phase-like" gate set of the QFT recogniser. -/
def cpCount (seq : List Op) : Nat :=
  countGate seq "cp" + countGate seq "crz" + countGate seq "cu1" +
    countGate seq "cz" + countGate seq "p"

/-- The fixed rotation-gate set of rules 6 and 7. -/
def rotationCount (seq : List Op) : Nat :=
  countGate seq "ry" + countGate seq "rz" + countGate seq "rx" +
    countGate seq "u1" + countGate seq "u2" + countGate seq "u3"

/-- `rotation_types`: the names among `ry`, `rz`, `rx` in sequence order. -/
def rotationTypes (seq : List Op) : List String :=
  (seq.map (·.name)).filter (fun g => g = "ry" ∨ g = "rz" ∨ g = "rx")

/-- The full guard of the QFT recogniser (rule 1 of `match_known_pattern`):
a Hadamard present, at least two distinct qubits, a positive phase-like gate
count whose fraction of the sequence exceeds 0.3 (`10*cp > 3*len`, exact for
the rational comparison the float code performs), and a Hadamard within the
first three operations. -/
def qftCond (seq : List Op) : Prop :=
  1 ≤ countGate seq "h" ∧ 2 ≤ numQubitsOf seq ∧ 0 < cpCount seq ∧
    3 * seq.length < 10 * cpCount seq ∧
    ((seq.take 3).map (·.name)).contains "h"

instance (seq : List Op) : Decidable (qftCond seq) := by
  unfold qftCond; infer_instance

/-- The guard of the Grover recogniser (rule 2), flattened: at least two
qubits and three operations, at least two Hadamards, a CNOT or CZ present,
the sequence starting or ending with a Hadamard, Hadamard fraction above 0.2
(`5*h > len`), and a phase-ish gate present or CNOT count at least the qubit
count. -/
def groverCond (seq : List Op) : Prop :=
  2 ≤ numQubitsOf seq ∧ 3 ≤ seq.length ∧ 2 ≤ countGate seq "h" ∧
    (0 < countGate seq "cx" ∨ 0 < countGate seq "cz") ∧
    ((seq.map (·.name)).headD "" = "h" ∨ (seq.map (·.name)).getLastD "" = "h") ∧
    seq.length < 5 * countGate seq "h" ∧
    ((seq.map (·.name)).any (fun g => g = "z" ∨ g = "cz" ∨ g = "cp" ∨ g = "crz") ∨
      numQubitsOf seq ≤ countGate seq "cx")

instance (seq : List Op) : Decidable (groverCond seq) := by
  unfold groverCond; infer_instance

/-- `SemanticLabeler.match_known_pattern`: the ordered rule cascade, each
rule's guards flattened into one condition (a failed inner guard falls
through to the next rule exactly as in the source). -/
def matchKnownPattern (seq : List Op) : Option String :=
  if qftCond seq then
    some ("QFT Circuit Segment" ++
      if 0 < countGate seq "swap" then " (with SWAP Layer)" else "")
  else if groverCond seq then
    some "Grover Diffusion/Oracle Block"
  else if (∀ o ∈ seq, o.name = "cx") ∧ 2 ≤ seq.length then
    if numQubitsOf seq = 2 then some "CNOT Pair"
    else if isLinear seq then some "CNOT Chain"
    else some "CNOT Ladder"
  else if ∀ o ∈ seq, o.name = "swap" then
    some "Swap Network"
  else if (∀ o ∈ seq, o.name = "h") ∧ 2 ≤ seq.length then
    if seq.length = numQubitsOf seq then some "Hadamard Layer"
    else some "Hadamard Ladder"
  else if 0 < countGate seq "cx" ∧ 0 < rotationCount seq ∧ rotationTypes seq ≠ [] then
    let rt := ((rotationTypes seq).headD "").toUpper
    if countGate seq "cx" = 1 ∧ rotationCount seq = 1 then
      some (rt ++ " Rotation Block")
    else if countGate seq "cx" = 2 ∧ rotationCount seq = 1 then
      some (rt ++ " Rotation with CNOT Pair")
    else if 2 ≤ countGate seq "cx" ∧ 1 ≤ rotationCount seq then
      some (rt ++ " Rotation with Entangling Layer")
    else
      some "Rotation-Entangling Block"
  else if 0 < rotationCount seq ∧ countGate seq "cx" = 0 ∧ rotationTypes seq ≠ [] then
    let rt := ((rotationTypes seq).headD "").toUpper
    if (rotationTypes seq).all (· = (rotationTypes seq).headD "") then
      some (rt ++ " Rotation Block")
    else
      some "Mixed Rotation Block"
  else if 0 < countGate seq "cz" ∧ countGate seq "cx" = 0 then
    if 2 ≤ countGate seq "cz" then some "CZ Ladder" else some "CZ Gate"
  else
    none

/-! ## The layered graph builder (`convert_to_app_circuit_format`) -/

/-- The decimal digit character for `n % 10`. -/
def digitChar (n : Nat) : Char :=
  match n % 10 with
  | 0 => '0' | 1 => '1' | 2 => '2' | 3 => '3' | 4 => '4'
  | 5 => '5' | 6 => '6' | 7 => '7' | 8 => '8' | _ => '9'

/-- Digit list of `n` (most significant first); `fuel ≥ n + 1` suffices. -/
def natDigits : Nat → Nat → List Char
  | 0, _ => []
  | fuel + 1, n =>
    if n < 10 then [digitChar n]
    else natDigits fuel (n / 10) ++ [digitChar (n % 10)]

/-- Python `str(n)` for a natural number. -/
def natToStr (n : Nat) : String := String.mk (natDigits (n + 1) n)

/-- Decimal decoding of a digit string (verification helper used to prove
that `natToStr` is injective). -/
def decodeDigits (cs : List Char) : Nat :=
  cs.foldl (fun acc c => 10 * acc + (c.toNat - 48)) 0

/-- One entry of `analysis_result['dag_flat']`. -/
structure FlatItem where
  position : Nat
  gate : String
  qubits : List String
  deriving DecidableEq, Repr

/-- One `(start, end)` entry of a serialized macro's `positions`. -/
structure PosInfo where
  start : Nat
  endPos : Nat
  deriving DecidableEq, Repr

/-- One serializable macro record of `analysis_result['macros']`. -/
structure MacroOut where
  label : String
  count : Nat
  windowSize : Nat
  gates : List (String × List String)
  positions : List PosInfo
  deriving DecidableEq, Repr

/-- The fields of `analysis_result['statistics']` the claims refer to. -/
structure Statistics where
  originalGates : Nat
  circuitDepth : Nat
  numQubits : Nat
  numMacros : Nat
  deriving DecidableEq, Repr

/-- The part of an `analyze_circuit` result consumed by the graph builder. -/
structure AnalysisResult where
  dagFlat : List FlatItem
  macros : List MacroOut
  statistics : Statistics
  deriving DecidableEq, Repr

/-- A graph node's `type` field. -/
inductive NodeType
  | init
  | gate
  | endq
  deriving DecidableEq, Repr

/-- A node of the output graph (`position` is -1 on init nodes). -/
structure GNode where
  id : String
  name : String
  type : NodeType
  position : Int
  qubits : List String
  layer : Int
  deriving DecidableEq, Repr

/-- An edge of the output graph. -/
structure GEdge where
  name : String
  fromNode : String
  toNode : String
  qubit : String
  deriving DecidableEq, Repr

/-- One emitted macro instance (`name`, resolved `gate_ids`, constituent
gate descriptions). -/
structure MacroInstance where
  name : String
  gateIds : List String
  nodeDefs : List (String × List String)
  deriving DecidableEq, Repr

/-- The builder's output `{nodes, edges, macros}`. -/
structure GraphOut where
  nodes : List GNode
  edges : List GEdge
  macroInstancesOut : List MacroInstance
  deriving DecidableEq, Repr

/-- `q_start_{q}` -/
def startIdOf (q : String) : String := "q_start_" ++ q

/-- `q_end_{q}` -/
def endIdOf (q : String) : String := "q_end_" ++ q

/-- `gate_{pos}` -/
def gateIdOf (pos : Nat) : String := "gate_" ++ natToStr pos

/-- The builder's qubit identifier list `[str(i) for i in range(num_qubits)]`. -/
def qubitStrs (n : Nat) : List String := (List.range n).map natToStr

/-- The mutable state threaded through the builder's gate loop. -/
structure BState where
  nodes : List GNode
  edges : List GEdge
  last : List (String × String)
  layers : List (String × Int)
  maxGateLayer : Int
  deriving Repr

/-- The init node emitted for qubit `q` (layer -1, position -1). -/
def initNode (q : String) : GNode :=
  { id := startIdOf q, name := "q" ++ q ++ "_init", type := NodeType.init
    position := -1, qubits := [q], layer := -1 }

/-- Step 1 of the builder: one init node per qubit, seeding the last-node and
layer trackers. -/
def convInit (numQubits : Nat) : BState :=
  { nodes := (qubitStrs numQubits).map initNode
    edges := []
    last := (qubitStrs numQubits).map fun q => (q, startIdOf q)
    layers := (qubitStrs numQubits).map fun q => (startIdOf q, (-1 : Int))
    maxGateLayer := 0 }

/-- Predecessor collection for one gate node: for each qubit the gate
touches, the current last node on that qubit (if any), deduplicated per
`(predecessor, qubit)` pair, together with that predecessor's layer. -/
def predStep (st : BState) (acc : List (String × String) × List Int)
    (q : String) : List (String × String) × List Int :=
  match alookup st.last q with
  | some predId =>
    if (predId, q) ∈ acc.1 then acc
    else (acc.1 ++ [(predId, q)], acc.2 ++ [(alookup st.layers predId).getD 0])
  | none => acc

/-- Predecessor collection over all of a gate's qubits. -/
def collectPreds (st : BState) (qubits : List String) :
    List (String × String) × List Int :=
  qubits.foldl (predStep st) ([], [])

/-- `1 + max(predecessor_layers)` when there are predecessors, else 0. -/
def layerFromPreds : List Int → Int
  | [] => 0
  | l :: ls => 1 + ls.foldl max l

/-- Steps 2-3 of the builder for one `dag_flat` item: create the gate node,
compute its layer from its predecessors, emit its edges and update the
trackers.  (The predecessor-layer lookup `.getD 0` can never fall back to
its default: every id recorded in `last` also has a layer recorded.) -/
def convStep (st : BState) (item : FlatItem) : BState :=
  let nodeId := gateIdOf item.position
  let preds := collectPreds st item.qubits
  let currentLayer := layerFromPreds preds.2
  let node : GNode :=
    { id := nodeId, name := item.gate, type := NodeType.gate
      position := (item.position : Int), qubits := item.qubits
      layer := currentLayer }
  { nodes := st.nodes ++ [node]
    edges := st.edges ++ preds.1.map fun pq =>
      { name := "q" ++ pq.2, fromNode := pq.1, toNode := nodeId, qubit := pq.2 }
    last := item.qubits.foldl (fun l q => aupdate l q nodeId) st.last
    layers := aupdate st.layers nodeId currentLayer
    maxGateLayer := max st.maxGateLayer currentLayer }

/-- The builder state after processing all gate nodes. -/
def convAfterGates (ar : AnalysisResult) : BState :=
  ar.dagFlat.foldl convStep (convInit ar.statistics.numQubits)

/-- `max_pos`: one past the largest gate position (0 when there are none). -/
def maxPosOf (ar : AnalysisResult) : Nat :=
  (ar.dagFlat.map (·.position)).foldl max 0 + 1

/-- The end node emitted for qubit `q`. -/
def endNode (ar : AnalysisResult) (q : String) : GNode :=
  { id := endIdOf q, name := "q" ++ q ++ "_end", type := NodeType.endq
    position := (maxPosOf ar : Int), qubits := [q]
    layer := (convAfterGates ar).maxGateLayer + 1 }

/-- The final edge from the last node on qubit `q` to its end node.  (The
`.getD ""` can never fall back: every listed qubit is seeded in `last`.) -/
def endEdge (ar : AnalysisResult) (q : String) : GEdge :=
  { name := "q" ++ q
    fromNode := (alookup (convAfterGates ar).last q).getD ""
    toNode := endIdOf q, qubit := q }

/-- Step 5 of the builder: one macro instance per position range whose gate
ids resolve, or a single empty-id record when none do. -/
def macroInstancesOf (ar : AnalysisResult) : List MacroInstance :=
  ar.macros.flatMap fun md =>
    let inst := md.positions.filterMap fun pos =>
      let ids := ((List.range' pos.start (pos.endPos - pos.start)).filter
        (fun p => (ar.dagFlat.map (·.position)).contains p)).map gateIdOf
      if ids ≠ [] then
        some { name := md.label, gateIds := ids, nodeDefs := md.gates : MacroInstance }
      else none
    if inst = [] then
      [{ name := md.label, gateIds := [], nodeDefs := md.gates }]
    else inst

/-- `convert_to_app_circuit_format`: init nodes, gate nodes with layers and
edges, end nodes at `max_gate_layer + 1`, and the macro-instance overlay. -/
def convertToAppCircuitFormat (ar : AnalysisResult) : GraphOut :=
  let st := convAfterGates ar
  { nodes := st.nodes ++ (qubitStrs ar.statistics.numQubits).map (endNode ar)
    edges := st.edges ++ (qubitStrs ar.statistics.numQubits).map (endEdge ar)
    macroInstancesOut := macroInstancesOf ar }

/-- First node with a given id (`findNode nodes id`); node ids are unique for
well-formed inputs, so this is node lookup. -/
def findNode (nodes : List GNode) (i : String) : Option GNode :=
  nodes.find? fun nd => nd.id = i

/-- The builder-state invariant maintained through the gate loop: node ids
are unique, the layer tracker agrees with the emitted nodes, every last-node
entry has a recorded layer bounded by the running maximal gate layer, every
emitted edge increases the layer by at least one, the running maximum is
non-negative, every gate target has an incoming edge realising
`layer = 1 + max(predecessor layers)`, and no emitted node uses an end-node
identifier. -/
def builderInv (st : BState) : Prop :=
  (st.nodes.map (fun nd => nd.id)).Nodup ∧
  (∀ kv ∈ st.layers, ∃ nd, findNode st.nodes kv.1 = some nd ∧ nd.layer = kv.2) ∧
  (∀ qv ∈ st.last, ∃ l, alookup st.layers qv.2 = some l ∧ l ≤ st.maxGateLayer) ∧
  (∀ e ∈ st.edges, ∃ u v, findNode st.nodes e.fromNode = some u ∧
    findNode st.nodes e.toNode = some v ∧ u.layer + 1 ≤ v.layer) ∧
  0 ≤ st.maxGateLayer ∧
  (∀ e ∈ st.edges, ∀ v, findNode st.nodes e.toNode = some v →
    v.type = NodeType.gate →
    ∃ e' ∈ st.edges, e'.toNode = e.toNode ∧
      ∃ u', findNode st.nodes e'.fromNode = some u' ∧ v.layer = u'.layer + 1) ∧
  (∀ nd ∈ st.nodes, ∀ q, nd.id ≠ endIdOf q)

/-! ## The repository's sample fixture (`input_data` in
`circuit_json_processing/circuit_json_parsing.py`) -/

/-- The 15-gate, 3-qubit `dag_flat` of the sample fixture. -/
def fixtureDagFlat : List FlatItem :=
  [ { position := 0, gate := "h", qubits := ["2"] }
  , { position := 1, gate := "cx", qubits := ["1", "2"] }
  , { position := 2, gate := "u3", qubits := ["2"] }
  , { position := 3, gate := "cx", qubits := ["1", "2"] }
  , { position := 4, gate := "h", qubits := ["1"] }
  , { position := 5, gate := "u3", qubits := ["2"] }
  , { position := 6, gate := "cx", qubits := ["0", "2"] }
  , { position := 7, gate := "u3", qubits := ["2"] }
  , { position := 8, gate := "cx", qubits := ["0", "2"] }
  , { position := 9, gate := "cx", qubits := ["0", "1"] }
  , { position := 10, gate := "u3", qubits := ["1"] }
  , { position := 11, gate := "cx", qubits := ["0", "1"] }
  , { position := 12, gate := "h", qubits := ["0"] }
  , { position := 13, gate := "u3", qubits := ["1"] }
  , { position := 14, gate := "u3", qubits := ["2"] } ]

/-- The sample fixture: the `EntanglingLayer(2<->0)` macro over positions
`(5,7)` and `(7,9)`, with the stated statistics (depth 12, 3 qubits). -/
def fixtureInput : AnalysisResult :=
  { dagFlat := fixtureDagFlat
    macros :=
      [ { label := "EntanglingLayer(2<->0)", count := 2, windowSize := 2
          gates := [("u3", ["2"]), ("cx", ["0", "2"])]
          positions := [⟨5, 7⟩, ⟨7, 9⟩] } ]
    statistics :=
      { originalGates := 15, circuitDepth := 12, numQubits := 3, numMacros := 1 } }

/-! ## Definitions written from the spec's words (for refutation/refinement) -/

/-- Modelled from the spec: the candidate ordering the spec claims — sort
descending by size, and among equal sizes put the candidate with the LARGER
start position first. -/
def claimedSortCandidates (cands : List Cand) : List Cand :=
  sortLe (fun a b => decide (b.size < a.size) ||
    (decide (a.size = b.size) && decide (b.start ≤ a.start))) cands

/-- Modelled from the spec: the full selection pipeline under the spec's
claimed larger-start-first tie-break. -/
def claimedSelectorPipeline (minReps : Nat) (patterns : Patterns) : List MacroRec :=
  let selected := greedySelect (claimedSortCandidates (allMacroCandidates patterns))
  let grouped := groupByHash selected
  let out := (grouped.filter fun g => minReps ≤ g.positions.length).map fun g =>
    { hash := g.hash, sequence := g.sequence, positions := g.positions
      count := g.positions.length, windowSize := g.windowSize : MacroRec }
  sortDescBy (fun m => ((m.count : Int), (m.windowSize : Int))) out

/-- Written from the amended claim: sort descending by size, and among equal
sizes put the candidate with the SMALLER start position first. -/
def amendedSortCandidates (cands : List Cand) : List Cand :=
  sortLe (fun a b => decide (b.size < a.size) ||
    (decide (a.size = b.size) && decide (a.start ≤ b.start))) cands

/-- Written from the amended claim: accept a candidate iff its half-open
range `[start,end)` overlaps no previously accepted range, where two ranges
overlap unless `end1 <= start2` or `end2 <= start1`. -/
def specGreedy (acc : List Cand) : List Cand → List Cand
  | [] => acc
  | c :: cs =>
    if ∀ d ∈ acc, c.endPos ≤ d.start ∨ d.endPos ≤ c.start then
      specGreedy (acc ++ [c]) cs
    else
      specGreedy acc cs

/-- Written from the amended claim: the full selection pipeline with the
smaller-start-first tie-break and the half-open overlap test. -/
def amendedSelectorPipeline (minReps : Nat) (patterns : Patterns) : List MacroRec :=
  let selected := specGreedy [] (amendedSortCandidates (allMacroCandidates patterns))
  let grouped := groupByHash selected
  let out := (grouped.filter fun g => minReps ≤ g.positions.length).map fun g =>
    { hash := g.hash, sequence := g.sequence, positions := g.positions
      count := g.positions.length, windowSize := g.windowSize : MacroRec }
  sortDescBy (fun m => ((m.count : Int), (m.windowSize : Int))) out

/-- Modelled from the spec: the per-qubit end-node layer the spec claims —
`1 + max(layer over all gate nodes touching that qubit, or -1 if none)`. -/
def claimedEndLayer (g : GraphOut) (q : String) : Int :=
  1 + ((g.nodes.filter fun nd =>
    decide (nd.type = NodeType.gate) && nd.qubits.contains q).map (·.layer)).foldl
      max (-1)

/-- Invariant of one group of `window_patterns` for window size `w`: the
group is non-empty, every recorded range is `[i, i+w)` within bounds, and
the starts are strictly increasing. -/
def windowGroupInv (ops : List Op) (w : Nat)
    (kv : PatternHash × List (Nat × Nat)) : Prop :=
  kv.2 ≠ [] ∧ (∀ p ∈ kv.2, p.2 = p.1 + w ∧ p.1 + w ≤ ops.length) ∧
    (kv.2.map Prod.fst).Pairwise (· < ·)

/-- Invariant of one `detect_patterns` dictionary entry. -/
def patternEntryInv (minReps : Nat) (ops : List Op)
    (kv : PatternHash × PatternInfo) : Prop :=
  kv.2.positions ≠ [] ∧
  kv.2.count = kv.2.positions.length ∧
  minReps ≤ kv.2.positions.length ∧
  2 ≤ kv.2.windowSize ∧
  (∀ p ∈ kv.2.positions,
    p.2 = p.1 + kv.2.windowSize ∧ p.1 + kv.2.windowSize ≤ ops.length) ∧
  (kv.2.positions.map Prod.fst).Pairwise (· < ·) ∧
  kv.2.sequence =
    opsSlice ops (kv.2.positions.headD (0, 0)).1 (kv.2.positions.headD (0, 0)).2 ∧
  kv.2.sequence.length = kv.2.windowSize

/-- A candidate drawn from a pattern dictionary: its fields are copied from
one dictionary entry, with its range among that entry's positions. -/
def candFromPatterns (patterns : Patterns) (c : Cand) : Prop :=
  ∃ kv ∈ patterns, c.hash = kv.1 ∧ c.sequence = kv.2.sequence ∧
    c.windowSize = kv.2.windowSize ∧ (c.start, c.endPos) ∈ kv.2.positions ∧
    c.size = (c.endPos : Int) - (c.start : Int)

/-- Invariant of one `macros_by_hash` group, relative to a property `F`
satisfied by every selected candidate: its metadata comes from a candidate
of its hash, each of its positions is the range of a candidate of its hash,
and its position starts are strictly increasing. -/
def groupEntryInv (F : Cand → Prop) (g : GroupInfo) : Prop :=
  g.positions ≠ [] ∧
  (∃ c, F c ∧ c.hash = g.hash ∧ c.sequence = g.sequence ∧
    c.windowSize = g.windowSize) ∧
  (∀ p ∈ g.positions, ∃ c, F c ∧ c.hash = g.hash ∧ p = (c.start, c.endPos)) ∧
  (g.positions.map Prod.fst).Pairwise (· < ·)

/-- Disjointness of two half-open position ranges. -/
def rangeDisjoint (p q : Nat × Nat) : Prop := p.2 ≤ q.1 ∨ q.2 ≤ p.1

instance (p q : Nat × Nat) : Decidable (rangeDisjoint p q) := by
  unfold rangeDisjoint; infer_instance

/-- A candidate's half-open position range. -/
def candRange (c : Cand) : Nat × Nat := (c.start, c.endPos)

/-- Every position range in a returned macro list, across all macros. -/
def allPositions (ms : List MacroRec) : List (Nat × Nat) :=
  ms.flatMap fun m => m.positions

/-- Every position range in a grouped-by-hash accumulator. -/
def flatGroupPositions (gs : List GroupInfo) : List (Nat × Nat) :=
  gs.flatMap fun g => g.positions

/-! ## Lemmas about the stable sort -/

theorem insertLe_perm {α : Type} (le : α → α → Bool) (x : α) (l : List α) :
    (insertLe le x l).Perm (x :: l) := by
  induction l with
  | nil => simp [insertLe]
  | cons y ys ih =>
    rw [insertLe]
    by_cases h : le x y = true
    · rw [if_pos h]
    · rw [if_neg h]
      exact (ih.cons y).trans (List.Perm.swap x y ys)

theorem sortLe_perm {α : Type} (le : α → α → Bool) (l : List α) :
    (sortLe le l).Perm l := by
  induction l with
  | nil => simp [sortLe]
  | cons x xs ih => exact (insertLe_perm le x (sortLe le xs)).trans (ih.cons x)

theorem pairwise_insertLe {α : Type} {le : α → α → Bool}
    (htot : ∀ a b, le a b = true ∨ le b a = true)
    (htrans : ∀ a b c, le a b = true → le b c = true → le a c = true)
    (x : α) {l : List α} (hl : l.Pairwise (le · · = true)) :
    (insertLe le x l).Pairwise (le · · = true) := by
  induction l with
  | nil => simp [insertLe]
  | cons y ys ih =>
    rcases List.pairwise_cons.mp hl with ⟨hy, hys⟩
    rw [insertLe]
    by_cases h : le x y = true
    · rw [if_pos h]
      refine List.pairwise_cons.mpr ⟨?_, hl⟩
      intro z hz
      rcases List.mem_cons.mp hz with rfl | hz
      · exact h
      · exact htrans x y z h (hy z hz)
    · rw [if_neg h]
      have hyx : le y x = true := (htot x y).resolve_left h
      refine List.pairwise_cons.mpr ⟨?_, ih hys⟩
      intro z hz
      rcases List.mem_cons.mp ((insertLe_perm le x ys).mem_iff.mp hz) with rfl | hz
      · exact hyx
      · exact hy z hz

theorem pairwise_sortLe {α : Type} {le : α → α → Bool}
    (htot : ∀ a b, le a b = true ∨ le b a = true)
    (htrans : ∀ a b c, le a b = true → le b c = true → le a c = true)
    (l : List α) : (sortLe le l).Pairwise (le · · = true) := by
  induction l with
  | nil => simp [sortLe]
  | cons x xs ih => exact pairwise_insertLe htot htrans x ih

theorem insertLe_congr {α : Type} {le₁ le₂ : α → α → Bool}
    (h : ∀ a b, le₁ a b = le₂ a b) (x : α) (l : List α) :
    insertLe le₁ x l = insertLe le₂ x l := by
  induction l with
  | nil => rfl
  | cons y ys ih => simp only [insertLe, h, ih]

theorem sortLe_congr {α : Type} {le₁ le₂ : α → α → Bool}
    (h : ∀ a b, le₁ a b = le₂ a b) (l : List α) :
    sortLe le₁ l = sortLe le₂ l := by
  induction l with
  | nil => rfl
  | cons x xs ih => simp only [sortLe, ih, insertLe_congr h]

theorem charListLe_total (a b : List Char) :
    charListLe a b = true ∨ charListLe b a = true := by
  induction a generalizing b with
  | nil => left; rfl
  | cons c cs ih =>
    cases b with
    | nil => right; rfl
    | cons d ds =>
      rcases Nat.lt_trichotomy c.toNat d.toNat with h | h | h
      · left; simp [charListLe, h]
      · rcases ih ds with h' | h' <;> simp [charListLe, h, Nat.lt_irrefl, h']
      · right; simp [charListLe, h]

theorem charListLe_trans (a b c : List Char)
    (hab : charListLe a b = true) (hbc : charListLe b c = true) :
    charListLe a c = true := by
  induction a generalizing b c with
  | nil => rfl
  | cons x xs ih =>
    cases b with
    | nil => simp [charListLe] at hab
    | cons y ys =>
      cases c with
      | nil => simp [charListLe] at hbc
      | cons z zs =>
        rw [charListLe] at hab hbc ⊢
        rcases Nat.lt_trichotomy x.toNat y.toNat with h1 | h1 | h1
        · rcases Nat.lt_trichotomy y.toNat z.toNat with h2 | h2 | h2
          · rw [if_pos (by omega)]
          · rw [if_pos (by omega)]
          · rw [if_neg (by omega), if_pos h2] at hbc
            exact absurd hbc (by simp)
        · rcases Nat.lt_trichotomy y.toNat z.toNat with h2 | h2 | h2
          · rw [if_pos (by omega)]
          · rw [if_neg (by omega), if_neg (by omega)] at hab
            rw [if_neg (by omega), if_neg (by omega)] at hbc
            rw [if_neg (by omega), if_neg (by omega)]
            exact ih ys zs hab hbc
          · rw [if_neg (by omega), if_pos h2] at hbc
            exact absurd hbc (by simp)
        · rw [if_neg (by omega), if_pos h1] at hab
          exact absurd hab (by simp)

theorem charListLe_antisymm (a b : List Char)
    (hab : charListLe a b = true) (hba : charListLe b a = true) : a = b := by
  induction a generalizing b with
  | nil =>
    cases b with
    | nil => rfl
    | cons d ds => simp [charListLe] at hba
  | cons c cs ih =>
    cases b with
    | nil => simp [charListLe] at hab
    | cons d ds =>
      rw [charListLe] at hab hba
      rcases Nat.lt_trichotomy c.toNat d.toNat with h1 | h1 | h1
      · rw [if_neg (by omega), if_pos h1] at hba
        exact absurd hba (by simp)
      · rw [if_neg (by omega), if_neg (by omega)] at hab
        rw [if_neg (by omega), if_neg (by omega)] at hba
        have hv : c.val.toNat = d.val.toNat := h1
        have hcd : c = d := Char.ext (UInt32.ext hv)
        subst hcd
        exact congrArg (c :: ·) (ih ds hab hba)
      · rw [if_neg (by omega), if_pos h1] at hab
        exact absurd hab (by simp)

theorem strLe_total (a b : String) : strLe a b = true ∨ strLe b a = true :=
  charListLe_total a.data b.data

theorem strLe_trans (a b c : String) (hab : strLe a b = true)
    (hbc : strLe b c = true) : strLe a c = true :=
  charListLe_trans a.data b.data c.data hab hbc

theorem strLe_antisymm (a b : String) (hab : strLe a b = true)
    (hba : strLe b a = true) : a = b := by
  cases a with
  | mk da =>
    cases b with
    | mk db => exact congrArg String.mk (charListLe_antisymm da db hab hba)

/-- Sorting is canonical on permutation classes: two lists of qubit
identifiers that are permutations of each other sort to the same list. -/
theorem sortQubits_perm_eq {l₁ l₂ : List String} (h : l₁.Perm l₂) :
    sortQubits l₁ = sortQubits l₂ := by
  haveI : IsAntisymm String (fun a b => strLe a b = true) :=
    ⟨fun a b hab hba => strLe_antisymm a b hab hba⟩
  have hp : (sortQubits l₁).Perm (sortQubits l₂) :=
    ((sortLe_perm strLe l₁).trans h).trans (sortLe_perm strLe l₂).symm
  have s₁ : (sortQubits l₁).Sorted (fun a b => strLe a b = true) :=
    pairwise_sortLe strLe_total strLe_trans l₁
  have s₂ : (sortQubits l₂).Sorted (fun a b => strLe a b = true) :=
    pairwise_sortLe strLe_total strLe_trans l₂
  exact List.eq_of_perm_of_sorted hp s₁ s₂

/-! ## C1: is the pattern hash insensitive to qubit identity? -/

/-- C1, counterexample: `hash_sequence` is NOT insensitive to qubit identity.
The one-gate window `[h("1")]` is the relabelling of `[h("0")]` under the
bijective qubit relabelling that swaps the identifiers `"0"` and `"1"`, yet
the two windows hash differently, because the sorted qubit tuple — with the
concrete identifiers — is part of the hashed normalized form.  This refutes
the claim that two windows that are the same gate pattern on different
physical qubits always receive the same pattern hash. -/
theorem hash_sequence_not_qubit_agnostic :
    relabelOps (fun q => if q = "0" then "1" else if q = "1" then "0" else q)
        [{ name := "h", qubits := ["0"], params := [] }] =
      [{ name := "h", qubits := ["1"], params := [] }] ∧
    hashSequence [{ name := "h", qubits := ["0"], params := [] }] ≠
      hashSequence [{ name := "h", qubits := ["1"], params := [] }] := by
  constructor
  · rfl
  · decide

/-- C1, amended: the pattern hash is insensitive to the ORDER of the qubit
identifiers within each gate (the qubit tuple is sorted before hashing) and
to nothing else about them: two windows whose gates agree pointwise on name
and parameters and whose qubit tuples are permutations of each other hash
identically. -/
theorem hash_sequence_qubit_order_insensitive (s₁ s₂ : List Op)
    (h : List.Forall₂
      (fun a b => a.name = b.name ∧ a.params = b.params ∧ a.qubits.Perm b.qubits)
      s₁ s₂) :
    hashSequence s₁ = hashSequence s₂ := by
  induction h with
  | nil => rfl
  | cons hab _ ih =>
    rcases hab with ⟨hn, hp, hq⟩
    simp only [hashSequence, List.map_cons] at ih ⊢
    rw [ih]
    congr 1
    simp only [normalizeOp, hn, hp, sortQubits_perm_eq hq]

/-- Witness for the amended C1: `cx` on the qubit tuple `("1","0")` and on
the reordered tuple `("0","1")` hash identically. -/
theorem hash_sequence_qubit_order_insensitive_witness :
    hashSequence [{ name := "cx", qubits := ["1", "0"], params := [] }] =
      hashSequence [{ name := "cx", qubits := ["0", "1"], params := [] }] :=
  hash_sequence_qubit_order_insensitive _ _
    (List.forall₂_cons.mpr ⟨⟨rfl, rfl, by decide⟩, List.Forall₂.nil⟩)

/-! ## C2: candidate ordering and the greedy accept rule -/

theorem greedyGo_eq_specGreedy (cs : List Cand) :
    ∀ sel, greedyGo sel (sel.map fun c => (c.start, c.endPos)) cs = specGreedy sel cs := by
  induction cs with
  | nil => intro sel; rfl
  | cons c cs ih =>
    intro sel
    rw [greedyGo, specGreedy]
    have hiff : ((sel.map fun c' => (c'.start, c'.endPos)).any
        (fun r => rangesOverlap c.start c.endPos r.1 r.2) = true) ↔
        ¬ ∀ d ∈ sel, c.endPos ≤ d.start ∨ d.endPos ≤ c.start := by
      rw [List.any_eq_true]
      constructor
      · rintro ⟨r, hr, hp⟩
        rcases List.mem_map.mp hr with ⟨d, hd, rfl⟩
        intro hall
        rcases hall d hd with h | h
        · simp [rangesOverlap, h] at hp
        · simp [rangesOverlap, h] at hp
      · intro hna
        rcases not_forall.mp hna with ⟨d, hd⟩
        rcases Classical.not_imp.mp hd with ⟨hmem, hor⟩
        refine ⟨(d.start, d.endPos), List.mem_map_of_mem _ hmem, ?_⟩
        simp only [rangesOverlap, Bool.not_eq_true', Bool.or_eq_false_iff,
          decide_eq_false_iff_not]
        exact ⟨fun h => hor (Or.inl h), fun h => hor (Or.inr h)⟩
    by_cases h : ∀ d ∈ sel, c.endPos ≤ d.start ∨ d.endPos ≤ c.start
    · rw [if_neg (fun hc => (hiff.mp hc) h), if_pos h]
      have : (sel.map fun c' => (c'.start, c'.endPos)) ++ [(c.start, c.endPos)] =
          (sel ++ [c]).map fun c' => (c'.start, c'.endPos) := by
        simp
      rw [this]
      exact ih (sel ++ [c])
    · rw [if_pos (hiff.mpr h), if_neg h]
      exact ih sel

theorem greedySelect_eq_specGreedy (cands : List Cand) :
    greedySelect cands = specGreedy [] cands := by
  have := greedyGo_eq_specGreedy cands []
  simpa [greedySelect] using this

theorem candidate_comparators_agree (a b : Cand) :
    keyGe (candKey a) (candKey b) =
      (decide (b.size < a.size) || (decide (a.size = b.size) && decide (a.start ≤ b.start))) := by
  simp only [keyGe, candKey]
  congr 1
  congr 1
  apply decide_eq_decide.mpr
  omega

theorem sortCandidates_eq_amended (cands : List Cand) :
    sortCandidates cands = amendedSortCandidates cands := by
  unfold sortCandidates sortDescBy amendedSortCandidates
  exact sortLe_congr (fun a b => candidate_comparators_agree a b) cands

/-- C2, counterexample: with one pattern of window size 2 occurring at the
overlapping ranges `(0,2)` and `(1,3)` (and repetition threshold 1), the
greedy scan considers and accepts the SMALLER start `(0,2)` first and rejects
`(1,3)`; under the claimed larger-start-first tie-break it would instead keep
`(1,3)`.  The two pipelines produce different outputs, refuting the claimed
candidate ordering. -/
theorem selector_tiebreak_counterexample :
    (findNonOverlappingMacros 1
        [(hashSequence [{ name := "a", qubits := ["0"], params := [] },
                        { name := "b", qubits := ["0"], params := [] }],
          { sequence := [{ name := "a", qubits := ["0"], params := [] },
                         { name := "b", qubits := ["0"], params := [] }]
            positions := [(0, 2), (1, 3)], windowSize := 2, count := 2 })]).map
        (fun m => m.positions) = [[(0, 2)]] ∧
    (claimedSelectorPipeline 1
        [(hashSequence [{ name := "a", qubits := ["0"], params := [] },
                        { name := "b", qubits := ["0"], params := [] }],
          { sequence := [{ name := "a", qubits := ["0"], params := [] },
                         { name := "b", qubits := ["0"], params := [] }]
            positions := [(0, 2), (1, 3)], windowSize := 2, count := 2 })]).map
        (fun m => m.positions) = [[(1, 3)]] := by
  constructor
  · decide
  · decide

/-- C2, amended: the flattened candidates are ordered descending by window
size and, among candidates of equal size, the one with the SMALLER start
position comes first; the greedy scan then considers candidates in exactly
that order and accepts a candidate iff its half-open range `[start,end)`
overlaps no previously accepted range (two ranges overlap unless
`end1 <= start2` or `end2 <= start1`).  Stated as: the source selector equals
the pipeline built verbatim from this amended description. -/
theorem selector_order_and_accept_rule (minReps : Nat) (patterns : Patterns) :
    findNonOverlappingMacros minReps patterns =
      amendedSelectorPipeline minReps patterns := by
  unfold findNonOverlappingMacros amendedSelectorPipeline
  rw [sortCandidates_eq_amended, greedySelect_eq_specGreedy]

/-! ## C3: pairwise non-overlap of all returned position ranges -/

theorem rangeDisjoint_symm {p q : Nat × Nat} (h : rangeDisjoint p q) :
    rangeDisjoint q p := h.symm

theorem specGreedy_pairwise (cs : List Cand) :
    ∀ acc, acc.Pairwise (fun a b => rangeDisjoint (candRange a) (candRange b)) →
      (specGreedy acc cs).Pairwise
        (fun a b => rangeDisjoint (candRange a) (candRange b)) := by
  induction cs with
  | nil => intro acc hacc; exact hacc
  | cons c cs ih =>
    intro acc hacc
    rw [specGreedy]
    by_cases h : ∀ d ∈ acc, c.endPos ≤ d.start ∨ d.endPos ≤ c.start
    · rw [if_pos h]
      refine ih (acc ++ [c]) ?_
      rw [List.pairwise_append]
      refine ⟨hacc, List.pairwise_singleton _ c, ?_⟩
      intro a ha b hb
      rcases List.mem_singleton.mp hb with rfl
      rcases h a ha with h' | h'
      · exact Or.inr h'
      · exact Or.inl h'
    · rw [if_neg h]
      exact ih acc hacc

theorem append_singleton_perm {β : Type} (p r : List β) (x : β) :
    (p ++ [x] ++ r).Perm ((p ++ r) ++ [x]) := by
  rw [List.append_assoc, List.append_assoc]
  exact List.Perm.append_left p List.perm_append_comm

theorem flatGroupPositions_groupInsert (acc : List GroupInfo) (c : Cand) :
    (flatGroupPositions (groupInsert acc c)).Perm
      (flatGroupPositions acc ++ [candRange c]) := by
  induction acc with
  | nil =>
    simp [flatGroupPositions, groupInsert, candRange]
  | cons g gs ih =>
    rw [groupInsert]
    by_cases h : g.hash = c.hash
    · rw [if_pos h]
      simp only [flatGroupPositions, List.flatMap_cons]
      exact append_singleton_perm g.positions (gs.flatMap fun g => g.positions)
        (c.start, c.endPos)
    · rw [if_neg h]
      simp only [flatGroupPositions, List.flatMap_cons] at ih ⊢
      rw [List.append_assoc]
      exact List.Perm.append_left _ ih

theorem flatGroupPositions_groupByHash (cs : List Cand) :
    (flatGroupPositions (groupByHash cs)).Perm (cs.map candRange) := by
  have main : ∀ acc, (flatGroupPositions (cs.foldl groupInsert acc)).Perm
      (flatGroupPositions acc ++ cs.map candRange) := by
    induction cs with
    | nil => intro acc; simp
    | cons c cs ih =>
      intro acc
      rw [List.foldl_cons]
      refine (ih (groupInsert acc c)).trans ?_
      refine ((flatGroupPositions_groupInsert acc c).append_right (cs.map candRange)).trans ?_
      rw [List.append_assoc]
      simp [List.map_cons]
  have h0 : flatGroupPositions ([] : List GroupInfo) = [] := rfl
  have hmain := main []
  rw [h0, List.nil_append] at hmain
  exact hmain

theorem flatMap_sublist {α β : Type} (f : α → List β) {l₁ l₂ : List α}
    (h : l₁.Sublist l₂) : (l₁.flatMap f).Sublist (l₂.flatMap f) := by
  induction h with
  | slnil => exact List.Sublist.refl _
  | cons a _ ih =>
    rw [List.flatMap_cons]
    exact ih.trans (List.sublist_append_right _ _)
  | cons₂ a _ ih =>
    rw [List.flatMap_cons, List.flatMap_cons]
    exact ih.append_left _

/-- C3: in the macro list returned by `find_non_overlapping_macros` — for
ANY pattern map — every pair of position ranges drawn from the entire
returned list (within one macro or across different macros) is disjoint as
half-open intervals: `end1 <= start2` or `end2 <= start1`, so no position
index is covered by two ranges. -/
theorem returned_ranges_pairwise_disjoint (minReps : Nat) (patterns : Patterns) :
    (allPositions (findNonOverlappingMacros minReps patterns)).Pairwise rangeDisjoint := by
  unfold findNonOverlappingMacros
  set sel := greedySelect (sortCandidates (allMacroCandidates patterns)) with hsel
  have h1 : sel.Pairwise (fun a b => rangeDisjoint (candRange a) (candRange b)) := by
    rw [hsel, greedySelect_eq_specGreedy]
    exact specGreedy_pairwise _ [] (List.Pairwise.nil)
  have h2 : (sel.map candRange).Pairwise rangeDisjoint := List.pairwise_map.mpr h1
  have h3 : (flatGroupPositions (groupByHash sel)).Pairwise rangeDisjoint :=
    ((flatGroupPositions_groupByHash sel).pairwise_iff (fun h => rangeDisjoint_symm h)).mpr h2
  have h4 : (flatGroupPositions
      ((groupByHash sel).filter fun g => minReps ≤ g.positions.length)).Pairwise
      rangeDisjoint := by
    refine List.Pairwise.sublist ?_ h3
    exact flatMap_sublist _ (List.filter_sublist _)
  have h5 : allPositions
      (((groupByHash sel).filter fun g => minReps ≤ g.positions.length).map fun g =>
        { hash := g.hash, sequence := g.sequence, positions := g.positions
          count := g.positions.length, windowSize := g.windowSize : MacroRec }) =
      flatGroupPositions ((groupByHash sel).filter fun g => minReps ≤ g.positions.length) := by
    simp [allPositions, flatGroupPositions, List.flatMap_map]
  have h6 : (allPositions
      (((groupByHash sel).filter fun g => minReps ≤ g.positions.length).map fun g =>
        { hash := g.hash, sequence := g.sequence, positions := g.positions
          count := g.positions.length, windowSize := g.windowSize : MacroRec })).Pairwise
      rangeDisjoint := by rw [h5]; exact h4
  refine (List.Perm.pairwise_iff (fun h => rangeDisjoint_symm h) ?_).mpr h6
  unfold allPositions
  exact List.Perm.flatMap_right _ (sortLe_perm _ _)

/-! ## C9: degenerate configurations -/

theorem findNonOverlappingMacros_nil (minReps : Nat) :
    findNonOverlappingMacros minReps [] = [] := rfl

/-- C9, counterexample: `min_repetitions < 1` (threshold 0) is NOT treated as
"no patterns found": on the four-operation sequence `x y x y` with threshold
0 the detector returns a non-empty pattern map (every window group trivially
meets the threshold) and the selector returns a non-empty macro list,
refuting the claim that this configuration yields zero detected patterns and
an empty macro list. -/
theorem min_repetitions_zero_counterexample :
    detectPatterns 0 8
        [{ name := "x", qubits := ["0"], params := [] },
         { name := "y", qubits := ["0"], params := [] },
         { name := "x", qubits := ["0"], params := [] },
         { name := "y", qubits := ["0"], params := [] }] ≠ [] ∧
    findNonOverlappingMacros 0 (detectPatterns 0 8
        [{ name := "x", qubits := ["0"], params := [] },
         { name := "y", qubits := ["0"], params := [] },
         { name := "x", qubits := ["0"], params := [] },
         { name := "y", qubits := ["0"], params := [] }]) ≠ [] := by
  constructor
  · decide
  · decide

/-- C9, amended: a configuration with `max_window_size < 2` or a sequence
shorter than 4 yields zero detected patterns and an empty macro list (and,
the pipeline being total, no exception); a threshold `min_repetitions < 1`
however does not produce an empty result in general (see the
counterexample): the threshold is then trivially satisfied and detection
proceeds normally. -/
theorem degenerate_config_yields_empty (minReps maxW : Nat) (ops : List Op)
    (h : maxW < 2 ∨ ops.length < 4) :
    detectPatterns minReps maxW ops = [] ∧
      findNonOverlappingMacros minReps (detectPatterns minReps maxW ops) = [] := by
  have hdet : detectPatterns minReps maxW ops = [] := by
    have hu : min (maxW + 1) (ops.length / 2 + 1) - 2 = 0 := by
      rcases h with h | h <;> omega
    simp only [detectPatterns]
    rw [hu]
    rfl
  exact ⟨hdet, by rw [hdet, findNonOverlappingMacros_nil]⟩

/-- Witness for the amended C9 at `max_window_size = 1` on an empty sequence. -/
theorem degenerate_config_yields_empty_witness :
    detectPatterns 2 1 [] = [] ∧
      findNonOverlappingMacros 2 (detectPatterns 2 1 []) = [] :=
  degenerate_config_yields_empty 2 1 [] (by decide)

/-! ## C8: QFT labelling -/

/-- C8, counterexample: the single-qubit sequence `h(0), p(0), p(0)` has a
Hadamard, phase-like fraction `2/3 > 0.3` and a Hadamard among the first
three operations — every condition of the claim — yet `match_known_pattern`
returns no label at all (in particular not `"QFT Circuit Segment"`), because
the source's QFT rule additionally requires at least two distinct qubits. -/
theorem qft_label_counterexample :
    (1 ≤ countGate [{ name := "h", qubits := ["0"], params := [] },
        { name := "p", qubits := ["0"], params := [] },
        { name := "p", qubits := ["0"], params := [] }] "h" ∧
      3 * ([{ name := "h", qubits := ["0"], params := [] },
        { name := "p", qubits := ["0"], params := [] },
        { name := "p", qubits := ["0"], params := [] }] : List Op).length <
        10 * cpCount [{ name := "h", qubits := ["0"], params := [] },
          { name := "p", qubits := ["0"], params := [] },
          { name := "p", qubits := ["0"], params := [] }] ∧
      (([({ name := "h", qubits := ["0"], params := [] } : Op),
        { name := "p", qubits := ["0"], params := [] },
        { name := "p", qubits := ["0"], params := [] }].take 3).map
          (fun o => o.name)).contains "h") ∧
    matchKnownPattern [{ name := "h", qubits := ["0"], params := [] },
      { name := "p", qubits := ["0"], params := [] },
      { name := "p", qubits := ["0"], params := [] }] = none := by
  constructor
  · refine ⟨by decide, by decide, by decide⟩
  · decide

/-- C8, amended: for every gate sequence containing at least one Hadamard,
involving at least two distinct qubit indices, whose phase-like gate count
(`cp`, `crz`, `cu1`, `cz`, `p`) divided by the sequence length exceeds 0.3,
and with a Hadamard within the first three operations, the labeler returns
`"QFT Circuit Segment"`, with `" (with SWAP Layer)"` appended exactly when a
swap gate is present. -/
theorem qft_labeling (seq : List Op)
    (h1 : 1 ≤ countGate seq "h") (h2 : 2 ≤ numQubitsOf seq)
    (h3 : 3 * seq.length < 10 * cpCount seq)
    (h4 : ((seq.take 3).map (fun o => o.name)).contains "h") :
    matchKnownPattern seq =
      some ("QFT Circuit Segment" ++
        if 0 < countGate seq "swap" then " (with SWAP Layer)" else "") := by
  have hcp : 0 < cpCount seq := by omega
  have hq : qftCond seq := ⟨h1, h2, hcp, h3, h4⟩
  unfold matchKnownPattern
  rw [if_pos hq]

/-- Witness: the claim's own example
`[h(0), cp(0,1), cp(0,2), h(1), cp(1,2), h(2)]` is labeled
`"QFT Circuit Segment"`. -/
theorem qft_labeling_witness :
    matchKnownPattern [{ name := "h", qubits := ["0"], params := [] },
      { name := "cp", qubits := ["0", "1"], params := [] },
      { name := "cp", qubits := ["0", "2"], params := [] },
      { name := "h", qubits := ["1"], params := [] },
      { name := "cp", qubits := ["1", "2"], params := [] },
      { name := "h", qubits := ["2"], params := [] }] =
      some "QFT Circuit Segment" := by
  rw [qft_labeling _ (by decide) (by decide) (by decide) (by decide)]
  decide

/-! ## Invariants of `detect_patterns` -/

theorem alookup_isSome_iff {κ ν : Type} [DecidableEq κ] (ps : List (κ × ν)) (k : κ) :
    (alookup ps k).isSome ↔ k ∈ ps.map Prod.fst := by
  induction ps with
  | nil => simp [alookup]
  | cons p ps ih =>
    rw [alookup]
    by_cases h : p.1 = k
    · simp [h]
    · rw [if_neg h]
      simp only [List.map_cons, List.mem_cons, ih]
      constructor
      · intro hh; exact Or.inr hh
      · rintro (hh | hh)
        · exact absurd hh.symm h
        · exact hh

theorem nodup_keys_eq {κ ν : Type} [DecidableEq κ] {ps : List (κ × ν)}
    (h : (ps.map Prod.fst).Nodup) {a b : κ × ν}
    (ha : a ∈ ps) (hb : b ∈ ps) (hk : a.1 = b.1) : a = b := by
  induction ps with
  | nil => cases ha
  | cons p ps ih =>
    rw [List.map_cons, List.nodup_cons] at h
    rcases List.mem_cons.mp ha with rfl | ha' <;>
      rcases List.mem_cons.mp hb with rfl | hb'
    · rfl
    · exact absurd (hk ▸ List.mem_map_of_mem Prod.fst hb') h.1
    · exact absurd (hk ▸ List.mem_map_of_mem Prod.fst ha') h.1
    · exact ih h.2 ha' hb'

theorem groupAppend_mem {acc : List (PatternHash × List (Nat × Nat))}
    {h : PatternHash} {pos : Nat × Nat} :
    ∀ kv ∈ groupAppend acc h pos,
      kv ∈ acc ∨ kv = (h, [pos]) ∨
        ∃ kv' ∈ acc, kv.1 = kv'.1 ∧ kv.2 = kv'.2 ++ [pos] := by
  induction acc with
  | nil =>
    intro kv hkv
    rcases List.mem_singleton.mp hkv with rfl
    exact Or.inr (Or.inl rfl)
  | cons q qs ih =>
    intro kv hkv
    rw [groupAppend] at hkv
    by_cases hq : q.1 = h
    · rw [if_pos hq] at hkv
      rcases List.mem_cons.mp hkv with rfl | hkv'
      · exact Or.inr (Or.inr ⟨q, List.mem_cons_self q qs, rfl, rfl⟩)
      · exact Or.inl (List.mem_cons_of_mem q hkv')
    · rw [if_neg hq] at hkv
      rcases List.mem_cons.mp hkv with rfl | hkv'
      · exact Or.inl (List.mem_cons_self _ _)
      · rcases ih kv hkv' with h1 | h1 | ⟨kv', hkv'', h1, h2⟩
        · exact Or.inl (List.mem_cons_of_mem q h1)
        · exact Or.inr (Or.inl h1)
        · exact Or.inr (Or.inr ⟨kv', List.mem_cons_of_mem q hkv'', h1, h2⟩)

theorem windowPatterns_inv (ops : List Op) (w : Nat) (hw : w ≤ ops.length) :
    ∀ kv ∈ windowPatterns ops w, windowGroupInv ops w kv := by
  have main : ∀ (idxs : List Nat), (∀ i ∈ idxs, i + w ≤ ops.length) →
      idxs.Pairwise (· < ·) →
      ∀ acc, (∀ kv ∈ acc, windowGroupInv ops w kv) →
        (∀ kv ∈ acc, ∀ p ∈ kv.2, ∀ i ∈ idxs, p.1 < i) →
        ∀ kv ∈ idxs.foldl
          (fun a i => groupAppend a (hashSequence (opsSlice ops i (i + w))) (i, i + w))
          acc, windowGroupInv ops w kv := by
    intro idxs
    induction idxs with
    | nil => intro _ _ acc hacc _ kv hkv; exact hacc kv hkv
    | cons i idxs ih =>
      intro hbnd hinc acc hacc hcross
      rw [List.foldl_cons]
      rcases List.pairwise_cons.mp hinc with ⟨hi, hinc'⟩
      refine ih (fun j hj => hbnd j (List.mem_cons_of_mem i hj)) hinc' _ ?_ ?_
      · intro kv hkv
        rcases groupAppend_mem kv hkv with h1 | h1 | ⟨kv', hkv', h1, h2⟩
        · exact hacc kv h1
        · subst h1
          refine ⟨by simp, ?_, by simp⟩
          intro p hp
          rcases List.mem_singleton.mp hp with rfl
          exact ⟨rfl, hbnd i (List.mem_cons_self _ _)⟩
        · rcases hacc kv' hkv' with ⟨hne, hbd, hpw⟩
          refine ⟨by simp [h2], ?_, ?_⟩
          · intro p hp
            rw [h2] at hp
            rcases List.mem_append.mp hp with hp' | hp'
            · exact hbd p hp'
            · rcases List.mem_singleton.mp hp' with rfl
              exact ⟨rfl, hbnd i (List.mem_cons_self _ _)⟩
          · rw [h2, List.map_append, List.pairwise_append]
            refine ⟨hpw, by simp, ?_⟩
            intro a ha b hb
            simp only [List.map_cons, List.map_nil, List.mem_singleton] at hb
            rcases List.mem_map.mp ha with ⟨p, hp, rfl⟩
            rw [hb]
            exact hcross kv' hkv' p hp i (List.mem_cons_self _ _)
      · intro kv hkv p hp j hj
        have hij : i < j := hi j hj
        rcases groupAppend_mem kv hkv with h1 | h1 | ⟨kv', hkv', h1, h2⟩
        · exact lt_trans (hcross kv h1 p hp i (List.mem_cons_self _ _)) hij
        · subst h1
          rcases List.mem_singleton.mp hp with rfl
          exact hij
        · rw [h2] at hp
          rcases List.mem_append.mp hp with hp' | hp'
          · exact lt_trans (hcross kv' hkv' p hp' i (List.mem_cons_self _ _)) hij
          · rcases List.mem_singleton.mp hp' with rfl
            exact hij
  refine main (List.range (ops.length - w + 1)) ?_ (List.pairwise_lt_range _) []
    (by intro kv hkv; cases hkv) (by intro kv hkv; cases hkv)
  intro i hi
  have := List.mem_range.mp hi
  omega

theorem headD_mem_of_ne_nil {β : Type} {l : List β} (h : l ≠ []) (d : β) :
    l.headD d ∈ l := by
  cases l with
  | nil => exact absurd rfl h
  | cons x xs => exact List.mem_cons_self x xs

theorem addWindowSizeAux_inv {minReps : Nat} {ops : List Op} {w : Nat}
    (hw2 : 2 ≤ w) :
    ∀ (gs : List (PatternHash × List (Nat × Nat))),
      (∀ g ∈ gs, windowGroupInv ops w g) →
      ∀ acc : Patterns, (∀ kv ∈ acc, patternEntryInv minReps ops kv) →
      ∀ kv ∈ gs.foldl
        (fun acc kv =>
          if minReps ≤ kv.2.length then
            if (alookup acc kv.1).isSome then acc
            else
              let p0 := kv.2.headD (0, 0)
              acc ++ [(kv.1,
                { sequence := opsSlice ops p0.1 p0.2
                  positions := kv.2
                  windowSize := w
                  count := kv.2.length })]
          else acc)
        acc, patternEntryInv minReps ops kv := by
  intro gs
  induction gs with
  | nil => intro _ acc hacc kv hkv; exact hacc kv hkv
  | cons g gs ih =>
    intro hgs acc hacc kv hkv
    rw [List.foldl_cons] at hkv
    have hg := hgs g (List.mem_cons_self _ _)
    have hgs' : ∀ g' ∈ gs, windowGroupInv ops w g' :=
      fun g' hg' => hgs g' (List.mem_cons_of_mem g hg')
    refine ih hgs' _ ?_ kv hkv
    intro kv' hkv'
    by_cases hrep : minReps ≤ g.2.length
    · rw [if_pos hrep] at hkv'
      by_cases hin : (alookup acc g.1).isSome = true
      · rw [if_pos hin] at hkv'
        exact hacc kv' hkv'
      · rw [if_neg hin] at hkv'
        rcases List.mem_append.mp hkv' with hold | hnew
        · exact hacc kv' hold
        · rcases List.mem_singleton.mp hnew with rfl
          rcases hg with ⟨hne, hbd, hpw⟩
          have hhead := headD_mem_of_ne_nil hne (0, 0)
          rcases hbd _ hhead with ⟨hhe, hhb⟩
          refine ⟨hne, rfl, hrep, hw2, ?_, hpw, rfl, ?_⟩
          · intro p hp; exact hbd p hp
          · simp only [opsSlice, List.length_take, List.length_drop]
            omega
    · rw [if_neg hrep] at hkv'
      exact hacc kv' hkv'

theorem addWindowSize_inv {minReps : Nat} {ops : List Op} {w : Nat}
    (hw2 : 2 ≤ w) (hwlen : w ≤ ops.length) (acc : Patterns)
    (hacc : ∀ kv ∈ acc, patternEntryInv minReps ops kv) :
    ∀ kv ∈ addWindowSize minReps ops acc w, patternEntryInv minReps ops kv := by
  unfold addWindowSize
  exact addWindowSizeAux_inv hw2 (windowPatterns ops w)
    (windowPatterns_inv ops w hwlen) acc hacc

theorem addWindowSizeAux_keys_nodup {minReps : Nat} {ops : List Op} {w : Nat} :
    ∀ (gs : List (PatternHash × List (Nat × Nat))),
      ∀ acc : Patterns, (acc.map Prod.fst).Nodup →
      ((gs.foldl
        (fun acc kv =>
          if minReps ≤ kv.2.length then
            if (alookup acc kv.1).isSome then acc
            else
              let p0 := kv.2.headD (0, 0)
              acc ++ [(kv.1,
                { sequence := opsSlice ops p0.1 p0.2
                  positions := kv.2
                  windowSize := w
                  count := kv.2.length })]
          else acc)
        acc).map Prod.fst).Nodup := by
  intro gs
  induction gs with
  | nil => intro acc hacc; exact hacc
  | cons g gs ih =>
    intro acc hacc
    rw [List.foldl_cons]
    refine ih _ ?_
    by_cases hrep : minReps ≤ g.2.length
    · rw [if_pos hrep]
      by_cases hin : (alookup acc g.1).isSome = true
      · rw [if_pos hin]; exact hacc
      · rw [if_neg hin]
        rw [List.map_append, List.nodup_append]
        refine ⟨hacc, by simp, ?_⟩
        intro a ha hb
        simp only [List.map_cons, List.map_nil, List.mem_singleton] at hb
        subst hb
        exact hin (by rw [alookup_isSome_iff]; exact ha)
    · rw [if_neg hrep]; exact hacc

theorem addWindowSize_keys_nodup {minReps : Nat} {ops : List Op} {w : Nat}
    (acc : Patterns) (hacc : (acc.map Prod.fst).Nodup) :
    ((addWindowSize minReps ops acc w).map Prod.fst).Nodup := by
  unfold addWindowSize
  exact addWindowSizeAux_keys_nodup (windowPatterns ops w) acc hacc

theorem detectPatterns_inv (minReps maxW : Nat) (ops : List Op) :
    (∀ kv ∈ detectPatterns minReps maxW ops, patternEntryInv minReps ops kv) ∧
    ((detectPatterns minReps maxW ops).map Prod.fst).Nodup := by
  unfold detectPatterns
  have main : ∀ (ws : List Nat), (∀ w ∈ ws, 2 ≤ w ∧ w ≤ ops.length) →
      ∀ acc : Patterns, (∀ kv ∈ acc, patternEntryInv minReps ops kv) →
        (acc.map Prod.fst).Nodup →
        (∀ kv ∈ ws.foldl (addWindowSize minReps ops) acc,
          patternEntryInv minReps ops kv) ∧
        ((ws.foldl (addWindowSize minReps ops) acc).map Prod.fst).Nodup := by
    intro ws
    induction ws with
    | nil => intro _ acc h1 h2; exact ⟨h1, h2⟩
    | cons w ws ih =>
      intro hb acc h1 h2
      rw [List.foldl_cons]
      rcases hb w (List.mem_cons_self _ _) with ⟨hw2, hwlen⟩
      exact ih (fun w' hw' => hb w' (List.mem_cons_of_mem w hw'))
        (addWindowSize minReps ops acc w)
        (addWindowSize_inv hw2 hwlen acc h1)
        (addWindowSize_keys_nodup acc h2)
  have hb : ∀ w ∈ List.range' 2 (min (maxW + 1) (ops.length / 2 + 1) - 2),
      2 ≤ w ∧ w ≤ ops.length := by
    intro w hw
    have := List.mem_range'.mp hw
    omega
  rcases main _ hb [] (by intro kv hkv; cases hkv) (by simp) with ⟨h1, h2⟩
  constructor
  · intro kv hkv
    exact h1 kv ((sortLe_perm _ _).mem_iff.mp hkv)
  · exact ((sortLe_perm _ _).map Prod.fst).nodup_iff.mpr h2

/-! ## Invariants of the selection pipeline -/

theorem allMacroCandidates_from (patterns : Patterns) :
    ∀ c ∈ allMacroCandidates patterns, candFromPatterns patterns c := by
  intro c hc
  unfold allMacroCandidates at hc
  rcases List.mem_flatMap.mp hc with ⟨kv, hkv, hc'⟩
  rcases List.mem_map.mp hc' with ⟨pos, hpos, rfl⟩
  exact ⟨kv, hkv, rfl, rfl, rfl, hpos, rfl⟩

theorem specGreedy_sublist :
    ∀ (cs acc : List Cand), ∃ l, l.Sublist cs ∧ specGreedy acc cs = acc ++ l := by
  intro cs
  induction cs with
  | nil => intro acc; exact ⟨[], List.Sublist.refl _, by simp [specGreedy]⟩
  | cons c cs ih =>
    intro acc
    rw [specGreedy]
    by_cases h : ∀ d ∈ acc, c.endPos ≤ d.start ∨ d.endPos ≤ c.start
    · rw [if_pos h]
      rcases ih (acc ++ [c]) with ⟨l, hsub, heq⟩
      exact ⟨c :: l, hsub.cons₂ c, by rw [heq, List.append_assoc]; rfl⟩
    · rw [if_neg h]
      rcases ih acc with ⟨l, hsub, heq⟩
      exact ⟨l, hsub.cons c, heq⟩

theorem greedySelect_sublist_sorted (cands : List Cand) :
    (greedySelect cands).Sublist cands := by
  rw [greedySelect_eq_specGreedy]
  rcases specGreedy_sublist cands [] with ⟨l, hsub, heq⟩
  rw [heq, List.nil_append]
  exact hsub

theorem keyGe_total (a b : Int × Int) : keyGe a b = true ∨ keyGe b a = true := by
  simp only [keyGe, Bool.or_eq_true, Bool.and_eq_true, decide_eq_true_eq]
  omega

theorem keyGe_trans (a b c : Int × Int) (hab : keyGe a b = true)
    (hbc : keyGe b c = true) : keyGe a c = true := by
  simp only [keyGe, Bool.or_eq_true, Bool.and_eq_true, decide_eq_true_eq] at hab hbc ⊢
  omega

theorem sortCandidates_pairwise (cands : List Cand) :
    (sortCandidates cands).Pairwise
      (fun a b => keyGe (candKey a) (candKey b) = true) :=
  pairwise_sortLe (fun a b => keyGe_total (candKey a) (candKey b))
    (fun a b c => keyGe_trans (candKey a) (candKey b) (candKey c)) cands

/-- Selected candidates drawn from a duplicate-free pattern dictionary that
satisfies the per-entry invariant: same hash forces strictly increasing
start positions along the selection order. -/
theorem selected_pairwise_hash_lt {minReps : Nat} {ops : List Op}
    (patterns : Patterns)
    (hinv : ∀ kv ∈ patterns, patternEntryInv minReps ops kv)
    (hnd : (patterns.map Prod.fst).Nodup) :
    (greedySelect (sortCandidates (allMacroCandidates patterns))).Pairwise
      (fun a b => a.hash = b.hash → a.start < b.start) := by
  have hsortk := (sortCandidates_pairwise (allMacroCandidates patterns)).sublist
    (greedySelect_sublist_sorted _)
  have hdisj : (greedySelect (sortCandidates (allMacroCandidates patterns))).Pairwise
      (fun a b => rangeDisjoint (candRange a) (candRange b)) := by
    rw [greedySelect_eq_specGreedy]
    exact specGreedy_pairwise _ [] List.Pairwise.nil
  have hmem : ∀ c ∈ greedySelect (sortCandidates (allMacroCandidates patterns)),
      candFromPatterns patterns c := by
    intro c hc
    have hc' := (greedySelect_sublist_sorted _).mem hc
    have hc'' := (sortLe_perm _ _).mem_iff.mp hc'
    exact allMacroCandidates_from patterns c hc''
  have hcomb := hsortk.and hdisj
  refine hcomb.imp_of_mem ?_
  intro a b ha hb hab
  rcases hab with ⟨hk, hd⟩
  intro hhash
  rcases hmem a ha with ⟨kva, hkva, hha, _, hwa, hpa, hsa⟩
  rcases hmem b hb with ⟨kvb, hkvb, hhb, _, hwb, hpb, hsb⟩
  have hkv : kva = kvb := nodup_keys_eq hnd hkva hkvb (by rw [← hha, ← hhb, hhash])
  subst hkv
  rcases hinv kva hkva with ⟨_, _, _, hw2, hbd, _, _, _⟩
  rcases hbd _ hpa with ⟨hea, _⟩
  rcases hbd _ hpb with ⟨heb, _⟩
  have hea' : a.endPos = a.start + kva.2.windowSize := by simpa using hea
  have heb' : b.endPos = b.start + kva.2.windowSize := by simpa using heb
  have hsize : a.size = b.size := by
    rw [hsa, hsb, hea', heb']
    push_cast
    ring
  have hstart : a.start ≤ b.start := by
    simp only [keyGe, candKey, Bool.or_eq_true, Bool.and_eq_true,
      decide_eq_true_eq] at hk
    rcases hk with hlt | ⟨_, hle⟩
    · rw [hsize] at hlt; omega
    · omega
  rcases hd with hle | hle
  · simp only [candRange] at hle
    omega
  · simp only [candRange] at hle
    omega

theorem selected_from (patterns : Patterns) :
    ∀ c ∈ greedySelect (sortCandidates (allMacroCandidates patterns)),
      candFromPatterns patterns c := by
  intro c hc
  have hc' := (greedySelect_sublist_sorted _).mem hc
  have hc'' := (sortLe_perm _ _).mem_iff.mp hc'
  exact allMacroCandidates_from patterns c hc''

theorem groupInsert_cases (acc : List GroupInfo) (c : Cand) :
    ∀ g ∈ groupInsert acc c,
      g ∈ acc ∨
      (∃ g' ∈ acc, g'.hash = c.hash ∧
        g = { g' with positions := g'.positions ++ [(c.start, c.endPos)] }) ∨
      g = { hash := c.hash, sequence := c.sequence
            positions := [(c.start, c.endPos)], windowSize := c.windowSize } := by
  induction acc with
  | nil =>
    intro g hg
    rcases List.mem_singleton.mp hg with rfl
    exact Or.inr (Or.inr rfl)
  | cons g0 gs ih =>
    intro g hg
    rw [groupInsert] at hg
    by_cases h0 : g0.hash = c.hash
    · rw [if_pos h0] at hg
      rcases List.mem_cons.mp hg with rfl | hg'
      · exact Or.inr (Or.inl ⟨g0, List.mem_cons_self _ _, h0, rfl⟩)
      · exact Or.inl (List.mem_cons_of_mem g0 hg')
    · rw [if_neg h0] at hg
      rcases List.mem_cons.mp hg with rfl | hg'
      · exact Or.inl (List.mem_cons_self _ _)
      · rcases ih g hg' with h1 | ⟨g', hg'', h1, h2⟩ | h1
        · exact Or.inl (List.mem_cons_of_mem g0 h1)
        · exact Or.inr (Or.inl ⟨g', List.mem_cons_of_mem g0 hg'', h1, h2⟩)
        · exact Or.inr (Or.inr h1)

theorem groupByHashAux_inv {F : Cand → Prop} :
    ∀ (cs : List Cand), (∀ c ∈ cs, F c) →
      cs.Pairwise (fun a b => a.hash = b.hash → a.start < b.start) →
      ∀ acc : List GroupInfo,
        (∀ g ∈ acc, groupEntryInv F g) →
        (∀ g ∈ acc, ∀ p ∈ g.positions, ∀ c ∈ cs, c.hash = g.hash → p.1 < c.start) →
        ∀ g ∈ cs.foldl groupInsert acc, groupEntryInv F g := by
  intro cs
  induction cs with
  | nil => intro _ _ acc hacc _ g hg; exact hacc g hg
  | cons c cs ih =>
    intro hF hpw acc hacc hcross g hg
    rw [List.foldl_cons] at hg
    rcases List.pairwise_cons.mp hpw with ⟨hc, hpw'⟩
    have hFc : F c := hF c (List.mem_cons_self _ _)
    refine ih (fun c' hc' => hF c' (List.mem_cons_of_mem c hc')) hpw'
      (groupInsert acc c) ?_ ?_ g hg
    · intro g' hg'
      rcases groupInsert_cases acc c g' hg' with h1 | ⟨g0, hg0, h1, rfl⟩ | rfl
      · exact hacc g' h1
      · rcases hacc g0 hg0 with ⟨hne, hmeta, hpos, hord⟩
        refine ⟨by simp, ?_, ?_, ?_⟩
        · rcases hmeta with ⟨c0, hc0⟩
          exact ⟨c0, hc0⟩
        · intro p hp
          rcases List.mem_append.mp hp with hp' | hp'
          · exact hpos p hp'
          · rcases List.mem_singleton.mp hp' with rfl
            exact ⟨c, hFc, h1.symm, rfl⟩
        · rw [List.map_append, List.pairwise_append]
          refine ⟨hord, by simp, ?_⟩
          intro a ha b hb
          simp only [List.map_cons, List.map_nil, List.mem_singleton] at hb
          rcases List.mem_map.mp ha with ⟨p, hp, rfl⟩
          rw [hb]
          exact hcross g0 hg0 p hp c (List.mem_cons_self _ _) h1.symm
      · refine ⟨by simp, ⟨c, hFc, rfl, rfl, rfl⟩, ?_, by simp⟩
        intro p hp
        rcases List.mem_singleton.mp hp with rfl
        exact ⟨c, hFc, rfl, rfl⟩
    · intro g' hg' p hp c' hc' hch
      rcases groupInsert_cases acc c g' hg' with h1 | ⟨g0, hg0, h1, rfl⟩ | rfl
      · exact hcross g' h1 p hp c' (List.mem_cons_of_mem c hc') hch
      · rcases List.mem_append.mp hp with hp' | hp'
        · exact hcross g0 hg0 p hp' c' (List.mem_cons_of_mem c hc') hch
        · rcases List.mem_singleton.mp hp' with rfl
          exact hc c' hc' (by rw [hch, h1])
      · rcases List.mem_singleton.mp hp with rfl
        exact hc c' hc' hch.symm

theorem groupByHash_inv {F : Cand → Prop} (cs : List Cand)
    (hF : ∀ c ∈ cs, F c)
    (hpw : cs.Pairwise (fun a b => a.hash = b.hash → a.start < b.start)) :
    ∀ g ∈ groupByHash cs, groupEntryInv F g :=
  groupByHashAux_inv cs hF hpw [] (by intro g hg; cases hg)
    (by intro g hg; cases hg)

theorem find_output_from (minReps : Nat) (patterns : Patterns) :
    ∀ m ∈ findNonOverlappingMacros minReps patterns,
      ∃ g ∈ groupByHash (greedySelect (sortCandidates (allMacroCandidates patterns))),
        minReps ≤ g.positions.length ∧
        m = { hash := g.hash, sequence := g.sequence, positions := g.positions
              count := g.positions.length, windowSize := g.windowSize } := by
  intro m hm
  unfold findNonOverlappingMacros at hm
  have hm' := (sortLe_perm _ _).mem_iff.mp hm
  rcases List.mem_map.mp hm' with ⟨g, hg, rfl⟩
  rcases List.mem_filter.mp hg with ⟨hgmem, hrep⟩
  exact ⟨g, hgmem, by simpa using hrep, rfl⟩

/-! ## C4: count consistency -/

/-- C4: for every macro returned by `detect_patterns` followed by
`find_non_overlapping_macros`: `count == len(positions)`,
`count >= min_repetitions`, and
`window_size == len(sequence) == end-start` for every `(start,end)` pair. -/
theorem macro_count_consistency (minReps maxW : Nat) (ops : List Op) :
    ∀ m ∈ findNonOverlappingMacros minReps (detectPatterns minReps maxW ops),
      m.count = m.positions.length ∧ minReps ≤ m.count ∧
      m.sequence.length = m.windowSize ∧
      ∀ p ∈ m.positions, p.2 = p.1 + m.windowSize := by
  intro m hm
  rcases detectPatterns_inv minReps maxW ops with ⟨hinv, hnd⟩
  rcases find_output_from minReps _ m hm with ⟨g, hgmem, hrep, rfl⟩
  have hgi := groupByHash_inv _ (selected_from _)
    (selected_pairwise_hash_lt _ hinv hnd) g hgmem
  rcases hgi with ⟨hne, ⟨c, hFc, hch, hcs, hcw⟩, hpos, hpw⟩
  rcases hFc with ⟨kv, hkv, hh, hs, hw, hp, _⟩
  rcases hinv kv hkv with ⟨_, _, _, _, hbd, _, _, hlen⟩
  refine ⟨rfl, hrep, ?_, ?_⟩
  · show g.sequence.length = g.windowSize
    rw [← hcs, ← hcw, hs, hw]
    exact hlen
  · intro p hp'
    have hp'' : p ∈ g.positions := hp'
    rcases hpos p hp'' with ⟨c', hFc', hch', rfl⟩
    rcases hFc' with ⟨kv', hkv', hh', hs', hw', hpm', _⟩
    have hkveq : kv' = kv :=
      nodup_keys_eq hnd hkv' hkv (by rw [← hh', hch', ← hch, hh])
    subst hkveq
    rcases hbd _ hpm' with ⟨he, _⟩
    have he' : c'.endPos = c'.start + kv'.2.windowSize := by simpa using he
    show (c'.start, c'.endPos).2 = (c'.start, c'.endPos).1 + g.windowSize
    rw [← hcw, hw]
    simpa using he'

/-- Witness for C4 on the concrete sequence `x y x y` (threshold 2): the
single returned macro satisfies every count-consistency conjunct. -/
theorem macro_count_consistency_witness :
    ∃ m ∈ findNonOverlappingMacros 2 (detectPatterns 2 8
        [{ name := "x", qubits := ["0"], params := [] },
         { name := "y", qubits := ["0"], params := [] },
         { name := "x", qubits := ["0"], params := [] },
         { name := "y", qubits := ["0"], params := [] }]),
      m.count = m.positions.length ∧ 2 ≤ m.count ∧
      m.sequence.length = m.windowSize ∧
      ∀ p ∈ m.positions, p.2 = p.1 + m.windowSize := by
  have h := macro_count_consistency 2 8
    [{ name := "x", qubits := ["0"], params := [] },
     { name := "y", qubits := ["0"], params := [] },
     { name := "x", qubits := ["0"], params := [] },
     { name := "y", qubits := ["0"], params := [] }]
    { hash := hashSequence [{ name := "x", qubits := ["0"], params := [] },
                            { name := "y", qubits := ["0"], params := [] }]
      sequence := [{ name := "x", qubits := ["0"], params := [] },
                   { name := "y", qubits := ["0"], params := [] }]
      positions := [(0, 2), (2, 4)], count := 2, windowSize := 2 }
    (by decide)
  exact ⟨_, by decide, h⟩

/-! ## C10: position ordering and the stored template -/

/-- C10: in both `detect_patterns` entries and the macros returned by
`find_non_overlapping_macros` (over the detector's output), the positions
list is sorted in strictly increasing order of start position, and the
stored sequence template is the slice of the input sequence at the pattern
group's FIRST detected occurrence; the final conjunct exhibits a run (on the
14-gate sequence `p q p q p q p q z p q w p q`, threshold 2) in which that
first detected occurrence — start 0 — is not among the surviving positions
after overlap resolution. -/
theorem macro_positions_sorted_and_template :
    (∀ minReps maxW : Nat, ∀ ops : List Op,
      (∀ kv ∈ detectPatterns minReps maxW ops,
        (kv.2.positions.map Prod.fst).Pairwise (· < ·) ∧ kv.2.positions ≠ [] ∧
        kv.2.sequence = opsSlice ops (kv.2.positions.headD (0, 0)).1
          (kv.2.positions.headD (0, 0)).2) ∧
      (∀ m ∈ findNonOverlappingMacros minReps (detectPatterns minReps maxW ops),
        (m.positions.map Prod.fst).Pairwise (· < ·) ∧
        ∃ kv ∈ detectPatterns minReps maxW ops, m.hash = kv.1 ∧
          m.sequence = kv.2.sequence ∧ kv.2.positions ≠ [] ∧
          kv.2.sequence = opsSlice ops (kv.2.positions.headD (0, 0)).1
            (kv.2.positions.headD (0, 0)).2)) ∧
    (∃ m ∈ findNonOverlappingMacros 2 (detectPatterns 2 8
        [{ name := "p", qubits := ["0"], params := [] },
         { name := "q", qubits := ["0"], params := [] },
         { name := "p", qubits := ["0"], params := [] },
         { name := "q", qubits := ["0"], params := [] },
         { name := "p", qubits := ["0"], params := [] },
         { name := "q", qubits := ["0"], params := [] },
         { name := "p", qubits := ["0"], params := [] },
         { name := "q", qubits := ["0"], params := [] },
         { name := "z", qubits := ["0"], params := [] },
         { name := "p", qubits := ["0"], params := [] },
         { name := "q", qubits := ["0"], params := [] },
         { name := "w", qubits := ["0"], params := [] },
         { name := "p", qubits := ["0"], params := [] },
         { name := "q", qubits := ["0"], params := [] }]),
      m.positions = [(6, 8), (9, 11), (12, 14)] ∧
      m.sequence = [{ name := "p", qubits := ["0"], params := [] },
                    { name := "q", qubits := ["0"], params := [] }] ∧
      ∀ p ∈ m.positions, p.1 ≠ 0) := by
  constructor
  · intro minReps maxW ops
    rcases detectPatterns_inv minReps maxW ops with ⟨hinv, hnd⟩
    constructor
    · intro kv hkv
      rcases hinv kv hkv with ⟨h1, _, _, _, _, h6, h7, _⟩
      exact ⟨h6, h1, h7⟩
    · intro m hm
      rcases find_output_from minReps _ m hm with ⟨g, hgmem, hrep, rfl⟩
      have hgi := groupByHash_inv _ (selected_from _)
        (selected_pairwise_hash_lt _ hinv hnd) g hgmem
      rcases hgi with ⟨hne, ⟨c, hFc, hch, hcs, hcw⟩, hpos, hpw⟩
      rcases hFc with ⟨kv, hkv, hh, hs, hw, hp, _⟩
      rcases hinv kv hkv with ⟨hne', _, _, _, _, _, h7, _⟩
      refine ⟨hpw, kv, hkv, ?_, ?_, hne', h7⟩
      · show g.hash = kv.1
        rw [← hch, hh]
      · show g.sequence = kv.2.sequence
        rw [← hcs, hs]
  · decide

/-- Witness for C10 on the concrete sequence `x y x y`: the returned macro's
positions are strictly increasing by start. -/
theorem macro_positions_sorted_witness :
    ∃ m ∈ findNonOverlappingMacros 2 (detectPatterns 2 8
        [{ name := "x", qubits := ["0"], params := [] },
         { name := "y", qubits := ["0"], params := [] },
         { name := "x", qubits := ["0"], params := [] },
         { name := "y", qubits := ["0"], params := [] }]),
      (m.positions.map Prod.fst).Pairwise (· < ·) := by
  have h := (macro_positions_sorted_and_template.1 2 8
    [{ name := "x", qubits := ["0"], params := [] },
     { name := "y", qubits := ["0"], params := [] },
     { name := "x", qubits := ["0"], params := [] },
     { name := "y", qubits := ["0"], params := [] }]).2
    { hash := hashSequence [{ name := "x", qubits := ["0"], params := [] },
                            { name := "y", qubits := ["0"], params := [] }]
      sequence := [{ name := "x", qubits := ["0"], params := [] },
                   { name := "y", qubits := ["0"], params := [] }]
      positions := [(0, 2), (2, 4)], count := 2, windowSize := 2 }
    (by decide)
  exact ⟨_, by decide, h.1⟩

/-! ## The graph builder: identifier and state lemmas -/

theorem digitChar_toNat : ∀ n, n < 10 → (digitChar n).toNat = 48 + n := by decide

theorem decodeDigits_append (cs : List Char) (c : Char) :
    decodeDigits (cs ++ [c]) = 10 * decodeDigits cs + (c.toNat - 48) := by
  simp [decodeDigits, List.foldl_append]

theorem decodeDigits_natDigits : ∀ fuel n, n < fuel →
    decodeDigits (natDigits fuel n) = n := by
  intro fuel
  induction fuel with
  | zero => intro n hn; omega
  | succ fuel ih =>
    intro n hn
    rw [natDigits]
    by_cases h : n < 10
    · rw [if_pos h]
      have hdc := digitChar_toNat n h
      simp only [decodeDigits, List.foldl_cons, List.foldl_nil, hdc]
      omega
    · rw [if_neg h]
      rw [decodeDigits_append]
      have h10 : n / 10 < fuel := by
        have := Nat.div_lt_self (by omega : 0 < n) (by omega : 1 < 10)
        omega
      rw [ih (n / 10) h10]
      have := digitChar_toNat (n % 10) (Nat.mod_lt n (by omega))
      rw [this]
      omega

theorem string_data_inj {a b : String} (h : a.data = b.data) : a = b := by
  cases a; cases b; exact congrArg String.mk h

theorem natToStr_inj : Function.Injective natToStr := by
  intro a b h
  have hd : natDigits (a + 1) a = natDigits (b + 1) b :=
    congrArg String.data h
  have ha := decodeDigits_natDigits (a + 1) a (by omega)
  have hb := decodeDigits_natDigits (b + 1) b (by omega)
  rw [← ha, ← hb, hd]

theorem qubitStrs_nodup (n : Nat) : (qubitStrs n).Nodup :=
  (List.nodup_range n).map natToStr_inj

theorem startIdOf_inj {q q' : String} (h : startIdOf q = startIdOf q') : q = q' := by
  have hd : "q_start_".data ++ q.data = "q_start_".data ++ q'.data :=
    congrArg String.data h
  exact string_data_inj (List.append_cancel_left hd)

theorem endIdOf_inj {q q' : String} (h : endIdOf q = endIdOf q') : q = q' := by
  have hd : "q_end_".data ++ q.data = "q_end_".data ++ q'.data :=
    congrArg String.data h
  exact string_data_inj (List.append_cancel_left hd)

theorem gateIdOf_inj {p p' : Nat} (h : gateIdOf p = gateIdOf p') : p = p' := by
  have hd : "gate_".data ++ (natToStr p).data = "gate_".data ++ (natToStr p').data :=
    congrArg String.data h
  exact natToStr_inj (string_data_inj (List.append_cancel_left hd))

theorem startIdOf_ne_gateIdOf (q : String) (p : Nat) : startIdOf q ≠ gateIdOf p := by
  intro h
  have hd : ("q_start_" ++ q).data = ("gate_" ++ natToStr p).data := congrArg String.data h
  have : 'q' :: "_start_".data ++ q.data = 'g' :: "ate_".data ++ (natToStr p).data := hd
  simp at this

theorem endIdOf_ne_gateIdOf (q : String) (p : Nat) : endIdOf q ≠ gateIdOf p := by
  intro h
  have hd : ("q_end_" ++ q).data = ("gate_" ++ natToStr p).data := congrArg String.data h
  have : 'q' :: "_end_".data ++ q.data = 'g' :: "ate_".data ++ (natToStr p).data := hd
  simp at this

theorem startIdOf_ne_endIdOf (q q' : String) : startIdOf q ≠ endIdOf q' := by
  intro h
  have hd : ("q_start_" ++ q).data = ("q_end_" ++ q').data := congrArg String.data h
  have : 'q' :: '_' :: 's' :: "tart_".data ++ q.data =
      'q' :: '_' :: 'e' :: "nd_".data ++ q'.data := hd
  simp at this

/-- The gate loop only appends gate-typed nodes, and the running
`max_gate_layer` is the maximum of 0 and the appended gate nodes' layers. -/
theorem convGates_nodes (items : List FlatItem) :
    ∀ st : BState, ∃ gs : List GNode,
      (items.foldl convStep st).nodes = st.nodes ++ gs ∧
      (∀ nd ∈ gs, nd.type = NodeType.gate) ∧
      (items.foldl convStep st).maxGateLayer =
        gs.foldl (fun m nd => max m nd.layer) st.maxGateLayer := by
  induction items with
  | nil =>
    intro st
    refine ⟨[], by simp, ?_, rfl⟩
    intro nd h
    cases h
  | cons item items ih =>
    intro st
    rw [List.foldl_cons]
    rcases ih (convStep st item) with ⟨gs, h1, h2, h3⟩
    refine ⟨{ id := gateIdOf item.position, name := item.gate, type := NodeType.gate
              position := (item.position : Int), qubits := item.qubits
              layer := layerFromPreds (collectPreds st item.qubits).2 } :: gs, ?_, ?_, ?_⟩
    · rw [h1]
      simp [convStep, List.append_assoc]
    · intro nd hnd
      rcases List.mem_cons.mp hnd with rfl | hnd'
      · rfl
      · exact h2 nd hnd'
    · rw [h3]
      rfl

/-- C5, counterexample: with one qubit and an empty gate list, the builder's
end node for qubit `"0"` has layer 1 (the global `max_gate_layer` starts at
0 and the end layer is `max_gate_layer + 1`), while the claimed per-qubit
formula `1 + max(layers of gates touching the qubit, default -1)` yields 0. -/
theorem end_layer_not_per_qubit :
    ((convertToAppCircuitFormat
        { dagFlat := [], macros := []
          statistics := { originalGates := 0, circuitDepth := 0, numQubits := 1
                          numMacros := 0 } }).nodes.filter
      (fun nd => nd.type == NodeType.endq)).map (fun nd => (nd.id, nd.layer)) =
        [("q_end_0", 1)] ∧
    claimedEndLayer (convertToAppCircuitFormat
        { dagFlat := [], macros := []
          statistics := { originalGates := 0, circuitDepth := 0, numQubits := 1
                          numMacros := 0 } }) "0" = 0 ∧
    (1 : Int) ≠ 0 := by
  refine ⟨by decide, by decide, by decide⟩

theorem filter_map_singleton {q : String} (P : GNode → Bool) (mk : String → GNode)
    (hP : ∀ q', P (mk q') = (q' == q)) :
    ∀ l : List String, l.Nodup → q ∈ l → (l.map mk).filter P = [mk q] := by
  intro l
  induction l with
  | nil => intro _ hq; cases hq
  | cons x xs ih =>
    intro hnd hq
    rw [List.nodup_cons] at hnd
    rw [List.map_cons, List.filter_cons]
    rcases List.mem_cons.mp hq with rfl | hq'
    · rw [hP _, if_pos (by simp)]
      have hnil : (xs.map mk).filter P = [] := by
        rw [List.filter_eq_nil_iff]
        intro nd hnd'
        rcases List.mem_map.mp hnd' with ⟨q', hq'', rfl⟩
        rw [hP q']
        intro hc
        exact hnd.1 ((eq_of_beq hc) ▸ hq'')
      rw [hnil]
    · have hx : ¬ (x = q) := fun hc => hnd.1 (hc ▸ hq')
      rw [hP x, if_neg (by simpa using hx)]
      exact ih hnd.2 hq'

theorem filter_map_false (P : GNode → Bool) (mk : String → GNode)
    (hP : ∀ q', P (mk q') = false) (l : List String) :
    (l.map mk).filter P = [] := by
  rw [List.filter_eq_nil_iff]
  intro nd hnd
  rcases List.mem_map.mp hnd with ⟨q', _, rfl⟩
  simp [hP q']

/-- C5, amended: the builder emits exactly one init node (at layer -1) and
exactly one end node per qubit `0..num_qubits-1`; every end node has the
SAME layer, namely `1 + max(0, maximum layer over ALL gate nodes)` — in
particular it is at least 1 even for a qubit no gate touches, rather than
the claimed per-qubit `1 + max(gate layers on that qubit, default -1)`. -/
theorem init_end_nodes_per_qubit (ar : AnalysisResult) :
    ∀ q ∈ qubitStrs ar.statistics.numQubits,
      ((convertToAppCircuitFormat ar).nodes.filter
        (fun nd => nd.type == NodeType.init && nd.qubits == [q])) = [initNode q] ∧
      (initNode q).layer = -1 ∧
      ((convertToAppCircuitFormat ar).nodes.filter
        (fun nd => nd.type == NodeType.endq && nd.qubits == [q])) = [endNode ar q] ∧
      (endNode ar q).layer = 1 +
        ((convertToAppCircuitFormat ar).nodes.filter
          (fun nd => nd.type == NodeType.gate)).foldl (fun m nd => max m nd.layer) 0 := by
  intro q hq
  rcases convGates_nodes ar.dagFlat (convInit ar.statistics.numQubits) with ⟨gs, h1, h2, h3⟩
  have hnodes : (convertToAppCircuitFormat ar).nodes =
      ((qubitStrs ar.statistics.numQubits).map initNode ++ gs) ++
        (qubitStrs ar.statistics.numQubits).map (endNode ar) := by
    show (convAfterGates ar).nodes ++ _ = _
    rw [convAfterGates, h1]
    rfl
  have hgs_not : ∀ (P : GNode → Bool), (∀ nd, nd.type = NodeType.gate → P nd = false) →
      gs.filter P = [] := by
    intro P hP
    rw [List.filter_eq_nil_iff]
    intro nd hnd
    simp [hP nd (h2 nd hnd)]
  refine ⟨?_, rfl, ?_, ?_⟩
  · rw [hnodes, List.filter_append, List.filter_append]
    rw [filter_map_singleton _ initNode (fun q' => by
      by_cases h : q' = q
      · subst h; simp [initNode]
      · simp [initNode, h]) _ (qubitStrs_nodup _) hq]
    rw [hgs_not _ (fun nd hnd => by simp [hnd])]
    rw [filter_map_false _ (endNode ar) (fun q' => by simp [endNode])]
    rfl
  · rw [hnodes, List.filter_append, List.filter_append]
    rw [filter_map_false _ initNode (fun q' => by simp [initNode])]
    rw [hgs_not _ (fun nd hnd => by simp [hnd])]
    rw [filter_map_singleton _ (endNode ar) (fun q' => by
      by_cases h : q' = q
      · subst h; simp [endNode]
      · simp [endNode, h]) _ (qubitStrs_nodup _) hq]
    rfl
  · have hfg : (convertToAppCircuitFormat ar).nodes.filter
        (fun nd => nd.type == NodeType.gate) = gs := by
      rw [hnodes, List.filter_append, List.filter_append]
      rw [filter_map_false _ initNode (fun q' => by simp [initNode])]
      rw [filter_map_false _ (endNode ar) (fun q' => by simp [endNode])]
      rw [List.filter_eq_self.mpr (fun nd hnd => by simp [h2 nd hnd])]
      simp
    rw [hfg]
    show (convAfterGates ar).maxGateLayer + 1 = _
    rw [convAfterGates, h3]
    have h0 : (convInit ar.statistics.numQubits).maxGateLayer = 0 := rfl
    rw [h0]
    omega

/-- Witness for the amended C5 at the sample fixture and qubit `"0"`. -/
theorem init_end_nodes_per_qubit_witness :
    ((convertToAppCircuitFormat fixtureInput).nodes.filter
        (fun nd => nd.type == NodeType.init && nd.qubits == ["0"])) = [initNode "0"] ∧
      (initNode "0").layer = -1 ∧
      ((convertToAppCircuitFormat fixtureInput).nodes.filter
        (fun nd => nd.type == NodeType.endq && nd.qubits == ["0"])) =
          [endNode fixtureInput "0"] ∧
      (endNode fixtureInput "0").layer = 1 +
        ((convertToAppCircuitFormat fixtureInput).nodes.filter
          (fun nd => nd.type == NodeType.gate)).foldl (fun m nd => max m nd.layer) 0 :=
  init_end_nodes_per_qubit fixtureInput "0" (by decide)

/-! ## C7: the sample fixture -/

/-- C7, counterexample: on the repository's sample fixture the builder's end
nodes sit at layer 12, not at the claimed layer 13 (the internal layering of
the 15 gates reaches maximal gate layer 11, and the end layer is that
maximum plus one; the fixture's stated transpiler depth 12 is not the
builder's layer count). -/
theorem fixture_end_layer_counterexample :
    ((convertToAppCircuitFormat fixtureInput).nodes.filter
        (fun nd => nd.type == NodeType.endq)).map (fun nd => (nd.id, nd.layer)) =
      [("q_end_0", 12), ("q_end_1", 12), ("q_end_2", 12)] ∧
    (12 : Int) ≠ 13 := by
  refine ⟨by decide, by decide⟩

/-- C7, amended: building the graph from the sample fixture reproduces
exactly `num_macros = 1`, `count = 2`, `window_size = 2` over positions
`(5,7)` and `(7,9)`, init nodes `q_start_0, q_start_1, q_start_2` at layer
-1, end nodes `q_end_0, q_end_1, q_end_2` at layer 12 (not 13), and a total
node count of 21 = 15 gate nodes + 3 init + 3 end. -/
theorem fixture_graph_reproduction :
    fixtureInput.statistics.numMacros = 1 ∧
    fixtureInput.macros.map (fun m => (m.count, m.windowSize, m.positions)) =
      [(2, 2, [⟨5, 7⟩, ⟨7, 9⟩])] ∧
    (convertToAppCircuitFormat fixtureInput).nodes.length = 21 ∧
    ((convertToAppCircuitFormat fixtureInput).nodes.filter
        (fun nd => nd.type == NodeType.gate)).length = 15 ∧
    ((convertToAppCircuitFormat fixtureInput).nodes.filter
        (fun nd => nd.type == NodeType.init)).map (fun nd => (nd.id, nd.layer)) =
      [("q_start_0", -1), ("q_start_1", -1), ("q_start_2", -1)] ∧
    ((convertToAppCircuitFormat fixtureInput).nodes.filter
        (fun nd => nd.type == NodeType.endq)).map (fun nd => (nd.id, nd.layer)) =
      [("q_end_0", 12), ("q_end_1", 12), ("q_end_2", 12)] := by
  refine ⟨rfl, by decide, by decide, by decide, by decide, by decide⟩

/-! ## C6: association-list and lookup lemmas -/

theorem alookup_mem {κ ν : Type} [DecidableEq κ] {ps : List (κ × ν)} {k : κ} {v : ν}
    (h : alookup ps k = some v) : (k, v) ∈ ps := by
  induction ps with
  | nil => simp [alookup] at h
  | cons p ps ih =>
    rw [alookup] at h
    by_cases hk : p.1 = k
    · rw [if_pos hk] at h
      have hv : p.2 = v := Option.some_inj.mp h
      have hp : p = (k, v) := Prod.ext hk hv
      rw [← hp]
      exact List.mem_cons_self _ _
    · rw [if_neg hk] at h
      exact List.mem_cons_of_mem p (ih h)

theorem alookup_append_some {κ ν : Type} [DecidableEq κ] {ps qs : List (κ × ν)}
    {k : κ} {v : ν} (h : alookup ps k = some v) : alookup (ps ++ qs) k = some v := by
  induction ps with
  | nil => simp [alookup] at h
  | cons p ps ih =>
    rw [alookup] at h
    rw [List.cons_append, alookup]
    by_cases hk : p.1 = k
    · rw [if_pos hk] at h ⊢; exact h
    · rw [if_neg hk] at h ⊢; exact ih h

theorem alookup_append_none {κ ν : Type} [DecidableEq κ] {ps : List (κ × ν)}
    {k : κ} (qs : List (κ × ν)) (h : alookup ps k = none) :
    alookup (ps ++ qs) k = alookup qs k := by
  induction ps with
  | nil => rfl
  | cons p ps ih =>
    rw [alookup] at h
    rw [List.cons_append, alookup]
    by_cases hk : p.1 = k
    · rw [if_pos hk] at h; cases h
    · rw [if_neg hk] at h ⊢; exact ih h

theorem alookup_eq_none_iff {κ ν : Type} [DecidableEq κ] (ps : List (κ × ν)) (k : κ) :
    alookup ps k = none ↔ k ∉ ps.map Prod.fst := by
  rw [← alookup_isSome_iff]
  cases alookup ps k <;> simp

theorem aupdate_not_mem {κ ν : Type} [DecidableEq κ] {ps : List (κ × ν)} {k : κ}
    (v : ν) (h : k ∉ ps.map Prod.fst) : aupdate ps k v = ps ++ [(k, v)] := by
  induction ps with
  | nil => rfl
  | cons p ps ih =>
    rw [List.map_cons, List.mem_cons] at h
    push_neg at h
    rw [aupdate, if_neg (fun hc => h.1 hc.symm), List.cons_append, ih h.2]

theorem alookup_aupdate_self {κ ν : Type} [DecidableEq κ] (ps : List (κ × ν))
    (k : κ) (v : ν) : alookup (aupdate ps k v) k = some v := by
  induction ps with
  | nil => simp [aupdate, alookup]
  | cons p ps ih =>
    rw [aupdate]
    by_cases hk : p.1 = k
    · rw [if_pos hk, alookup, if_pos hk]
    · rw [if_neg hk, alookup, if_neg hk]; exact ih

theorem alookup_aupdate_ne {κ ν : Type} [DecidableEq κ] (ps : List (κ × ν))
    {k k' : κ} (v : ν) (h : k ≠ k') : alookup (aupdate ps k v) k' = alookup ps k' := by
  induction ps with
  | nil => simp [aupdate, alookup, h]
  | cons p ps ih =>
    rw [aupdate]
    by_cases hk : p.1 = k
    · rw [if_pos hk, alookup, alookup, if_neg (by rw [hk]; exact h), if_neg (by rw [hk]; exact h)]
    · rw [if_neg hk, alookup, alookup]
      by_cases hk' : p.1 = k'
      · rw [if_pos hk', if_pos hk']
      · rw [if_neg hk', if_neg hk']; exact ih

theorem findNode_append_some {ns ms : List GNode} {i : String} {nd : GNode}
    (h : findNode ns i = some nd) : findNode (ns ++ ms) i = some nd := by
  unfold findNode at h ⊢
  rw [List.find?_append, h]
  rfl

theorem findNode_eq_none {ns : List GNode} {i : String}
    (h : ∀ nd ∈ ns, nd.id ≠ i) : findNode ns i = none := by
  unfold findNode
  rw [List.find?_eq_none]
  intro nd hnd
  simp [h nd hnd]

theorem findNode_append_right {ns ms : List GNode} {i : String}
    (h : findNode ns i = none) : findNode (ns ++ ms) i = findNode ms i := by
  unfold findNode at h ⊢
  rw [List.find?_append, h]
  rfl

theorem findNode_some {ns : List GNode} {i : String} {nd : GNode}
    (h : findNode ns i = some nd) : nd ∈ ns ∧ nd.id = i := by
  unfold findNode at h
  refine ⟨List.mem_of_find?_eq_some h, ?_⟩
  have := List.find?_some h
  simpa using this

theorem findNode_map_mk {mk : String → GNode} {idOf : String → String}
    (hid : ∀ q, (mk q).id = idOf q) (hinj : ∀ a b, idOf a = idOf b → a = b)
    (l : List String) {q : String} (hq : q ∈ l) :
    findNode (l.map mk) (idOf q) = some (mk q) := by
  induction l with
  | nil => cases hq
  | cons x xs ih =>
    rw [List.map_cons]
    unfold findNode
    rcases List.mem_cons.mp hq with rfl | hq'
    · rw [List.find?_cons_of_pos _ (by simp [hid])]
    · by_cases hx : x = q
      · subst hx
        rw [List.find?_cons_of_pos _ (by simp [hid])]
      · rw [List.find?_cons_of_neg _ (by
          simp only [hid, decide_eq_true_eq]
          exact fun hc => hx (hinj x q hc))]
        exact ih hq'

theorem le_foldl_max : ∀ (ls : List Int) (m : Int), m ≤ ls.foldl max m := by
  intro ls
  induction ls with
  | nil => intro m; exact le_refl m
  | cons y ys ih =>
    intro m
    rw [List.foldl_cons]
    exact le_trans (le_max_left m y) (ih (max m y))

theorem foldl_max_ge {x : Int} : ∀ (ls : List Int) (l : Int), x ∈ l :: ls →
    x ≤ ls.foldl max l := by
  intro ls
  induction ls with
  | nil =>
    intro l hx
    rcases List.mem_singleton.mp hx with rfl
    exact le_refl x
  | cons y ys ih =>
    intro l hx
    rw [List.foldl_cons]
    rcases List.mem_cons.mp hx with rfl | hx'
    · exact le_trans (le_max_left x y) (le_foldl_max ys (max x y))
    · rcases List.mem_cons.mp hx' with rfl | hx''
      · exact le_trans (le_max_right l x) (le_foldl_max ys (max l x))
      · exact ih (max l y) (List.mem_cons_of_mem _ hx'')

theorem foldl_max_mem : ∀ (ls : List Int) (l : Int), ls.foldl max l ∈ l :: ls := by
  intro ls
  induction ls with
  | nil => intro l; simp
  | cons y ys ih =>
    intro l
    rw [List.foldl_cons]
    have := ih (max l y)
    rcases List.mem_cons.mp this with heq | hmem
    · rcases max_choice l y with hm | hm
      · rw [heq, hm]; exact List.mem_cons_self _ _
      · rw [heq, hm]
        exact List.mem_cons_of_mem _ (List.mem_cons_self _ _)
    · exact List.mem_cons_of_mem _ (List.mem_cons_of_mem _ hmem)

theorem layerFromPreds_ge {ls : List Int} {x : Int} (hx : x ∈ ls) :
    x + 1 ≤ layerFromPreds ls := by
  cases ls with
  | nil => cases hx
  | cons l ls' =>
    rw [layerFromPreds]
    have := foldl_max_ge ls' l hx
    omega

theorem layerFromPreds_achieved {ls : List Int} (h : ls ≠ []) :
    ∃ x ∈ ls, layerFromPreds ls = 1 + x := by
  cases ls with
  | nil => exact absurd rfl h
  | cons l ls' =>
    rw [layerFromPreds]
    exact ⟨ls'.foldl max l, foldl_max_mem ls' l, rfl⟩

theorem collectPreds_spec (st : BState) (qubits : List String) :
    (∀ pq ∈ (collectPreds st qubits).1,
      alookup st.last pq.2 = some pq.1 ∧
      (alookup st.layers pq.1).getD 0 ∈ (collectPreds st qubits).2) ∧
    (∀ x ∈ (collectPreds st qubits).2,
      ∃ pq ∈ (collectPreds st qubits).1, x = (alookup st.layers pq.1).getD 0) ∧
    ((collectPreds st qubits).1 = [] ↔ (collectPreds st qubits).2 = []) := by
  unfold collectPreds
  have main : ∀ (qs : List String) (acc : List (String × String) × List Int),
      (∀ pq ∈ acc.1, alookup st.last pq.2 = some pq.1 ∧
        (alookup st.layers pq.1).getD 0 ∈ acc.2) →
      (∀ x ∈ acc.2, ∃ pq ∈ acc.1, x = (alookup st.layers pq.1).getD 0) →
      (acc.1 = [] ↔ acc.2 = []) →
      (∀ pq ∈ (qs.foldl (predStep st) acc).1, alookup st.last pq.2 = some pq.1 ∧
        (alookup st.layers pq.1).getD 0 ∈ (qs.foldl (predStep st) acc).2) ∧
      (∀ x ∈ (qs.foldl (predStep st) acc).2,
        ∃ pq ∈ (qs.foldl (predStep st) acc).1,
          x = (alookup st.layers pq.1).getD 0) ∧
      ((qs.foldl (predStep st) acc).1 = [] ↔ (qs.foldl (predStep st) acc).2 = []) := by
    intro qs
    induction qs with
    | nil => intro acc h1 h2 h3; exact ⟨h1, h2, h3⟩
    | cons q qs ih =>
      intro acc h1 h2 h3
      rw [List.foldl_cons]
      cases hlu : alookup st.last q with
      | none =>
        have hs : predStep st acc q = acc := by simp [predStep, hlu]
        rw [hs]
        exact ih acc h1 h2 h3
      | some predId =>
        by_cases hin : (predId, q) ∈ acc.1
        · have hs : predStep st acc q = acc := by simp [predStep, hlu, hin]
          rw [hs]
          exact ih acc h1 h2 h3
        · have hs : predStep st acc q =
              (acc.1 ++ [(predId, q)],
               acc.2 ++ [(alookup st.layers predId).getD 0]) := by
            simp [predStep, hlu, hin]
          rw [hs]
          refine ih _ ?_ ?_ ?_
          · intro pq hpq
            rcases List.mem_append.mp hpq with hpq' | hpq'
            · rcases h1 pq hpq' with ⟨ha, hb⟩
              exact ⟨ha, List.mem_append.mpr (Or.inl hb)⟩
            · rcases List.mem_singleton.mp hpq' with rfl
              exact ⟨hlu, List.mem_append.mpr (Or.inr (List.mem_singleton.mpr rfl))⟩
          · intro x hx
            rcases List.mem_append.mp hx with hx' | hx'
            · rcases h2 x hx' with ⟨pq, hpq, he⟩
              exact ⟨pq, List.mem_append.mpr (Or.inl hpq), he⟩
            · rcases List.mem_singleton.mp hx' with rfl
              exact ⟨(predId, q),
                List.mem_append.mpr (Or.inr (List.mem_singleton.mpr rfl)), rfl⟩
          · simp
  exact main qubits ([], []) (by intro pq h; cases h) (by intro x h; cases h) (by simp)

theorem aupdate_mem {κ ν : Type} [DecidableEq κ] {ps : List (κ × ν)} {k : κ} {v : ν} :
    ∀ kv ∈ aupdate ps k v, kv = (k, v) ∨ kv ∈ ps := by
  induction ps with
  | nil =>
    intro kv hkv
    exact Or.inl (List.mem_singleton.mp hkv)
  | cons p ps ih =>
    intro kv hkv
    rw [aupdate] at hkv
    by_cases hk : p.1 = k
    · rw [if_pos hk] at hkv
      rcases List.mem_cons.mp hkv with rfl | hkv'
      · exact Or.inl (by rw [hk])
      · exact Or.inr (List.mem_cons_of_mem p hkv')
    · rw [if_neg hk] at hkv
      rcases List.mem_cons.mp hkv with rfl | hkv'
      · exact Or.inr (List.mem_cons_self _ _)
      · rcases ih kv hkv' with h | h
        · exact Or.inl h
        · exact Or.inr (List.mem_cons_of_mem p h)

theorem lastFold_mem {v : String} :
    ∀ (qubits : List String) (l : List (String × String)),
      ∀ kv ∈ qubits.foldl (fun l q => aupdate l q v) l, kv.2 = v ∨ kv ∈ l := by
  intro qubits
  induction qubits with
  | nil => intro l kv hkv; exact Or.inr hkv
  | cons q qs ih =>
    intro l kv hkv
    rw [List.foldl_cons] at hkv
    rcases ih (aupdate l q v) kv hkv with h | h
    · exact Or.inl h
    · rcases aupdate_mem kv h with h' | h'
      · exact Or.inl (by rw [h'])
      · exact Or.inr h'

theorem lastFold_isSome {v : String} :
    ∀ (qubits : List String) (l : List (String × String)) (q : String),
      (alookup l q).isSome →
      (alookup (qubits.foldl (fun l q' => aupdate l q' v) l) q).isSome := by
  intro qubits
  induction qubits with
  | nil => intro l q h; exact h
  | cons q0 qs ih =>
    intro l q h
    rw [List.foldl_cons]
    refine ih (aupdate l q0 v) q ?_
    by_cases hq : q0 = q
    · subst hq
      rw [alookup_aupdate_self]
      rfl
    · rw [alookup_aupdate_ne _ _ hq]
      exact h

theorem convStep_inv {st : BState} {item : FlatItem}
    (hfresh : gateIdOf item.position ∉ st.nodes.map (fun nd => nd.id))
    (hinv : builderInv st) : builderInv (convStep st item) := by
  obtain ⟨hN, hA1, hA2, hA3, hA4, hA5, hE⟩ := hinv
  obtain ⟨hcp1, hcp2, hcpiff⟩ := collectPreds_spec st item.qubits
  have hfreshLayers : alookup st.layers (gateIdOf item.position) = none := by
    rw [alookup_eq_none_iff]
    intro hmem
    rcases List.mem_map.mp hmem with ⟨kv, hkv, hk⟩
    rcases hA1 kv hkv with ⟨nd, hfind, _⟩
    rcases findNode_some hfind with ⟨hnd_mem, hnd_id⟩
    exact hfresh (List.mem_map.mpr ⟨nd, hnd_mem, by rw [hnd_id, hk]⟩)
  have hlayers' : (convStep st item).layers =
      st.layers ++ [(gateIdOf item.position, layerFromPreds (collectPreds st item.qubits).2)] :=
    aupdate_not_mem _ ((alookup_eq_none_iff _ _).mp hfreshLayers)
  have hfindNone : findNode st.nodes (gateIdOf item.position) = none := by
    refine findNode_eq_none ?_
    intro nd hnd hc
    exact hfresh (List.mem_map.mpr ⟨nd, hnd, hc⟩)
  have hnodes' : (convStep st item).nodes = st.nodes ++
      [{ id := gateIdOf item.position, name := item.gate, type := NodeType.gate
         position := (item.position : Int), qubits := item.qubits
         layer := layerFromPreds (collectPreds st item.qubits).2 }] := rfl
  have hfindNew : findNode (convStep st item).nodes (gateIdOf item.position) =
      some { id := gateIdOf item.position, name := item.gate, type := NodeType.gate
             position := (item.position : Int), qubits := item.qubits
             layer := layerFromPreds (collectPreds st item.qubits).2 } := by
    rw [hnodes', findNode_append_right hfindNone]
    unfold findNode
    rw [List.find?_cons_of_pos _ (by simp)]
  have hfindOld : ∀ {i : String} {nd : GNode}, findNode st.nodes i = some nd →
      findNode (convStep st item).nodes i = some nd := by
    intro i nd h
    rw [hnodes']
    exact findNode_append_some h
  have hpredFact : ∀ pq ∈ (collectPreds st item.qubits).1,
      ∃ l, alookup st.layers pq.1 = some l ∧ l ≤ st.maxGateLayer ∧
        (alookup st.layers pq.1).getD 0 = l ∧
        l ∈ (collectPreds st item.qubits).2 := by
    intro pq hpq
    rcases hcp1 pq hpq with ⟨hlu, hx⟩
    rcases hA2 (pq.2, pq.1) (alookup_mem hlu) with ⟨l, hl, hlb⟩
    refine ⟨l, hl, hlb, by rw [hl]; rfl, ?_⟩
    have : (alookup st.layers pq.1).getD 0 = l := by rw [hl]; rfl
    rw [← this]
    exact hx
  refine ⟨?_, ?_, ?_, ?_, ?_, ?_, ?_⟩
  · rw [hnodes', List.map_append, List.nodup_append]
    refine ⟨hN, by simp, ?_⟩
    intro a ha hb
    simp only [List.map_cons, List.map_nil, List.mem_singleton] at hb
    rw [hb] at ha
    exact hfresh ha
  · intro kv hkv
    rw [hlayers'] at hkv
    rcases List.mem_append.mp hkv with hold | hnew
    · rcases hA1 kv hold with ⟨nd, hfind, hl⟩
      exact ⟨nd, hfindOld hfind, hl⟩
    · rcases List.mem_singleton.mp hnew with rfl
      exact ⟨_, hfindNew, rfl⟩
  · intro qv hqv
    have hlast' : (convStep st item).last =
        item.qubits.foldl (fun l q => aupdate l q (gateIdOf item.position)) st.last := rfl
    rw [hlast'] at hqv
    rcases lastFold_mem item.qubits st.last qv hqv with hnew | hold
    · refine ⟨layerFromPreds (collectPreds st item.qubits).2, ?_, ?_⟩
      · rw [hlayers', hnew, alookup_append_none _ hfreshLayers, alookup]
        rw [if_pos rfl]
      · show _ ≤ (convStep st item).maxGateLayer
        exact le_max_right _ _
    · rcases hA2 qv hold with ⟨l, hl, hlb⟩
      refine ⟨l, by rw [hlayers']; exact alookup_append_some hl, ?_⟩
      show _ ≤ (convStep st item).maxGateLayer
      exact le_trans hlb (le_max_left _ _)
  · intro e he
    have hedges' : (convStep st item).edges = st.edges ++
        (collectPreds st item.qubits).1.map (fun pq =>
          { name := "q" ++ pq.2, fromNode := pq.1
            toNode := gateIdOf item.position, qubit := pq.2 }) := rfl
    rw [hedges'] at he
    rcases List.mem_append.mp he with hold | hnew
    · rcases hA3 e hold with ⟨u, v, hu, hv, hle⟩
      exact ⟨u, v, hfindOld hu, hfindOld hv, hle⟩
    · rcases List.mem_map.mp hnew with ⟨pq, hpq, rfl⟩
      rcases hpredFact pq hpq with ⟨l, hl, _, _, hlmem⟩
      rcases hA1 (pq.1, l) (alookup_mem hl) with ⟨u, hu, hul⟩
      refine ⟨u, _, hfindOld hu, hfindNew, ?_⟩
      show u.layer + 1 ≤ layerFromPreds (collectPreds st item.qubits).2
      rw [hul]
      exact layerFromPreds_ge hlmem
  · show 0 ≤ max st.maxGateLayer _
    exact le_trans hA4 (le_max_left _ _)
  · intro e he v hv hvgate
    have hedges' : (convStep st item).edges = st.edges ++
        (collectPreds st item.qubits).1.map (fun pq =>
          { name := "q" ++ pq.2, fromNode := pq.1
            toNode := gateIdOf item.position, qubit := pq.2 }) := rfl
    rw [hedges'] at he
    rcases List.mem_append.mp he with hold | hnew
    · rcases hA3 e hold with ⟨u0, v0, hu0, hv0, _⟩
      have hv0' := hfindOld hv0
      have hvv : v = v0 := by
        rw [hv0'] at hv
        exact (Option.some_inj.mp hv).symm
      subst hvv
      rcases hA5 e hold v hv0 hvgate with ⟨e', he', hee, u', hu', hlayer⟩
      exact ⟨e', List.mem_append.mpr (Or.inl he'), hee, u', hfindOld hu', hlayer⟩
    · rcases List.mem_map.mp hnew with ⟨pq, hpq, rfl⟩
      have hvnode : v =
          { id := gateIdOf item.position, name := item.gate,
            type := NodeType.gate, position := (item.position : Int),
            qubits := item.qubits,
            layer := layerFromPreds (collectPreds st item.qubits).2 } := by
        have := hfindNew
        simp only at hv
        rw [this] at hv
        exact (Option.some_inj.mp hv).symm
      have hpne : (collectPreds st item.qubits).1 ≠ [] := by
        intro hc
        rw [hc] at hpq
        cases hpq
      have hlne : (collectPreds st item.qubits).2 ≠ [] := by
        intro hc
        exact hpne (hcpiff.mpr hc)
      rcases layerFromPreds_achieved hlne with ⟨x, hx, hach⟩
      rcases hcp2 x hx with ⟨pq', hpq', hxe⟩
      rcases hpredFact pq' hpq' with ⟨l', hl', _, hgd, _⟩
      rcases hA1 (pq'.1, l') (alookup_mem hl') with ⟨u', hu', hul'⟩
      refine ⟨{ name := "q" ++ pq'.2, fromNode := pq'.1
                toNode := gateIdOf item.position, qubit := pq'.2 },
        List.mem_append.mpr (Or.inr (List.mem_map.mpr ⟨pq', hpq', rfl⟩)), rfl,
        u', hfindOld hu', ?_⟩
      rw [hvnode]
      show layerFromPreds (collectPreds st item.qubits).2 = u'.layer + 1
      rw [hach, hxe, hgd, hul']
      omega
  · intro nd hnd q
    rw [hnodes'] at hnd
    rcases List.mem_append.mp hnd with hold | hnew
    · exact hE nd hold q
    · rcases List.mem_singleton.mp hnew with rfl
      exact fun hc => endIdOf_ne_gateIdOf q item.position hc.symm

theorem convInit_inv (n : Nat) : builderInv (convInit n) := by
  have hids : (convInit n).nodes.map (fun nd => nd.id) =
      (qubitStrs n).map (fun q => startIdOf q) := by
    show ((qubitStrs n).map initNode).map (fun nd => nd.id) =
      (qubitStrs n).map (fun q => startIdOf q)
    rw [List.map_map]
    rfl
  have halook : ∀ (l : List String), ∀ q ∈ l,
      alookup (l.map (fun q => (startIdOf q, (-1 : Int)))) (startIdOf q) =
        some (-1) := by
    intro l
    induction l with
    | nil => intro q hq; cases hq
    | cons x xs ih =>
      intro q hq
      rw [List.map_cons, alookup]
      by_cases hx : startIdOf x = startIdOf q
      · rw [if_pos hx]
      · rw [if_neg hx]
        rcases List.mem_cons.mp hq with rfl | hq'
        · exact absurd rfl hx
        · exact ih q hq'
  refine ⟨?_, ?_, ?_, ?_, le_refl 0, ?_, ?_⟩
  · rw [hids]
    exact (qubitStrs_nodup n).map (fun a b h => startIdOf_inj h)
  · intro kv hkv
    rcases List.mem_map.mp hkv with ⟨q, hq, rfl⟩
    refine ⟨initNode q, ?_, rfl⟩
    exact findNode_map_mk (fun _ => rfl) (fun a b h => startIdOf_inj h) _ hq
  · intro qv hqv
    rcases List.mem_map.mp hqv with ⟨q, hq, rfl⟩
    exact ⟨-1, halook _ q hq, by show (-1 : Int) ≤ 0; omega⟩
  · intro e he
    cases he
  · intro e he
    cases he
  · intro nd hnd q
    rcases List.mem_map.mp hnd with ⟨q', _, rfl⟩
    exact startIdOf_ne_endIdOf q' q

theorem convFold_inv (items : List FlatItem) :
    ∀ st : BState, (items.map (fun it => it.position)).Nodup →
      (∀ it ∈ items, gateIdOf it.position ∉ st.nodes.map (fun nd => nd.id)) →
      builderInv st → builderInv (items.foldl convStep st) := by
  induction items with
  | nil => intro st _ _ hinv; exact hinv
  | cons item items ih =>
    intro st hnd hfresh hinv
    rw [List.foldl_cons]
    rw [List.map_cons, List.nodup_cons] at hnd
    refine ih (convStep st item) hnd.2 ?_
      (convStep_inv (hfresh item (List.mem_cons_self _ _)) hinv)
    intro it hit
    have hnodes0 : (convStep st item).nodes = st.nodes ++
        [{ id := gateIdOf item.position, name := item.gate, type := NodeType.gate,
           position := (item.position : Int), qubits := item.qubits,
           layer := layerFromPreds (collectPreds st item.qubits).2 }] := rfl
    have hnodes' : (convStep st item).nodes.map (fun nd => nd.id) =
        st.nodes.map (fun nd => nd.id) ++ [gateIdOf item.position] := by
      rw [hnodes0, List.map_append]
      rfl
    rw [hnodes']
    intro hc
    rcases List.mem_append.mp hc with hc' | hc'
    · exact hfresh it (List.mem_cons_of_mem item hit) hc'
    · rcases List.mem_singleton.mp hc' with hc''
      have : it.position = item.position := gateIdOf_inj hc''
      exact hnd.1 (this ▸ List.mem_map_of_mem (fun it => it.position) hit)

theorem convFold_last_isSome (items : List FlatItem) :
    ∀ (st : BState) (q : String), (alookup st.last q).isSome →
      (alookup (items.foldl convStep st).last q).isSome := by
  induction items with
  | nil => intro st q h; exact h
  | cons item items ih =>
    intro st q h
    rw [List.foldl_cons]
    refine ih (convStep st item) q ?_
    show (alookup (item.qubits.foldl
      (fun l q' => aupdate l q' (gateIdOf item.position)) st.last) q).isSome
    exact lastFold_isSome item.qubits st.last q h

theorem seeded_last_isSome :
    ∀ (l : List String) (q : String), q ∈ l →
      (alookup (l.map fun q => (q, startIdOf q)) q).isSome := by
  intro l
  induction l with
  | nil => intro q hq; cases hq
  | cons x xs ih =>
    intro q hq
    rw [List.map_cons, alookup]
    by_cases hx : x = q
    · rw [if_pos hx]; rfl
    · rw [if_neg hx]
      rcases List.mem_cons.mp hq with rfl | hq'
      · exact absurd rfl hx
      · exact ih q hq'

theorem convInit_last_isSome (n : Nat) (q : String) (hq : q ∈ qubitStrs n) :
    (alookup (convInit n).last q).isSome := by
  show (alookup ((qubitStrs n).map fun q => (q, startIdOf q)) q).isSome
  exact seeded_last_isSome (qubitStrs n) q hq

/-! ## C6: layer monotonicity along edges -/

/-- C6, counterexample: with two qubits and two gates on qubit "0" only, the
edge from `q_start_1` (layer -1) to `q_end_1` (layer 2) is the ONLY edge
into `q_end_1` — a single-predecessor target — yet `2 ≠ -1 + 1`: equality
fails on an edge whose target has a single predecessor, refuting the claim's
"equality holds except when the target node has multiple predecessors with
different layers".  (The inequality `layer(v) ≥ 1 + layer(u)` does hold.) -/
theorem end_edge_strict_inequality_counterexample :
    ({ name := "q1", fromNode := "q_start_1", toNode := "q_end_1", qubit := "1" } : GEdge) ∈
      (convertToAppCircuitFormat
        { dagFlat := [{ position := 0, gate := "x", qubits := ["0"] },
                      { position := 1, gate := "x", qubits := ["0"] }]
          macros := []
          statistics := { originalGates := 2, circuitDepth := 2, numQubits := 2
                          numMacros := 0 } }).edges ∧
    ((convertToAppCircuitFormat
        { dagFlat := [{ position := 0, gate := "x", qubits := ["0"] },
                      { position := 1, gate := "x", qubits := ["0"] }]
          macros := []
          statistics := { originalGates := 2, circuitDepth := 2, numQubits := 2
                          numMacros := 0 } }).edges.filter
      (fun e => e.toNode == "q_end_1")).length = 1 ∧
    (findNode (convertToAppCircuitFormat
        { dagFlat := [{ position := 0, gate := "x", qubits := ["0"] },
                      { position := 1, gate := "x", qubits := ["0"] }]
          macros := []
          statistics := { originalGates := 2, circuitDepth := 2, numQubits := 2
                          numMacros := 0 } }).nodes "q_start_1").map
      (fun nd => nd.layer) = some (-1) ∧
    (findNode (convertToAppCircuitFormat
        { dagFlat := [{ position := 0, gate := "x", qubits := ["0"] },
                      { position := 1, gate := "x", qubits := ["0"] }]
          macros := []
          statistics := { originalGates := 2, circuitDepth := 2, numQubits := 2
                          numMacros := 0 } }).nodes "q_end_1").map
      (fun nd => nd.layer) = some 2 ∧
    (2 : Int) ≠ -1 + 1 := by
  refine ⟨by decide, by decide, by decide, by decide, by decide⟩

/-- C6, amended: for every edge `(u,v)` of the built graph (given the gate
positions are distinct, as they are for every `analyze_circuit` result),
`layer(v) ≥ 1 + layer(u)`; and whenever the target is a GATE node its layer
equals `1 + layer(u')` for some incoming edge `(u',v)` — i.e. gate layers
equal one plus the maximum predecessor layer — while for an edge into an END
node the inequality may be strict even with a single predecessor. -/
theorem edge_layer_monotone (ar : AnalysisResult)
    (hpos : (ar.dagFlat.map (fun it => it.position)).Nodup) :
    ∀ e ∈ (convertToAppCircuitFormat ar).edges,
      ∃ u v, findNode (convertToAppCircuitFormat ar).nodes e.fromNode = some u ∧
        findNode (convertToAppCircuitFormat ar).nodes e.toNode = some v ∧
        u.layer + 1 ≤ v.layer ∧
        (v.type = NodeType.gate →
          ∃ e' ∈ (convertToAppCircuitFormat ar).edges, e'.toNode = e.toNode ∧
            ∃ u', findNode (convertToAppCircuitFormat ar).nodes e'.fromNode = some u' ∧
              v.layer = u'.layer + 1) := by
  have hfresh0 : ∀ it ∈ ar.dagFlat, gateIdOf it.position ∉
      (convInit ar.statistics.numQubits).nodes.map (fun nd => nd.id) := by
    intro it _ hc
    rcases List.mem_map.mp hc with ⟨nd, hnd, hid⟩
    rcases List.mem_map.mp hnd with ⟨q, _, rfl⟩
    exact startIdOf_ne_gateIdOf q it.position hid
  have hinv : builderInv (convAfterGates ar) :=
    convFold_inv ar.dagFlat (convInit ar.statistics.numQubits) hpos hfresh0
      (convInit_inv ar.statistics.numQubits)
  obtain ⟨hN, hA1, hA2, hA3, hA4, hA5, hE⟩ := hinv
  have hnodes : (convertToAppCircuitFormat ar).nodes =
      (convAfterGates ar).nodes ++
        (qubitStrs ar.statistics.numQubits).map (endNode ar) := rfl
  have hedges : (convertToAppCircuitFormat ar).edges =
      (convAfterGates ar).edges ++
        (qubitStrs ar.statistics.numQubits).map (endEdge ar) := rfl
  have hstable : ∀ {i : String} {nd : GNode},
      findNode (convAfterGates ar).nodes i = some nd →
      findNode (convertToAppCircuitFormat ar).nodes i = some nd := by
    intro i nd h
    rw [hnodes]
    exact findNode_append_some h
  intro e he
  rw [hedges] at he
  rcases List.mem_append.mp he with hold | hend
  · rcases hA3 e hold with ⟨u, v, hu, hv, hle⟩
    refine ⟨u, v, hstable hu, hstable hv, hle, ?_⟩
    intro hvg
    rcases hA5 e hold v hv hvg with ⟨e', he', hee, u', hu', hlay⟩
    exact ⟨e', by rw [hedges]; exact List.mem_append.mpr (Or.inl he'), hee,
      u', hstable hu', hlay⟩
  · rcases List.mem_map.mp hend with ⟨q, hq, rfl⟩
    have hsome : (alookup (convAfterGates ar).last q).isSome := by
      show (alookup (ar.dagFlat.foldl convStep (convInit ar.statistics.numQubits)).last q).isSome
      exact convFold_last_isSome ar.dagFlat _ q (convInit_last_isSome _ q hq)
    rcases Option.isSome_iff_exists.mp hsome with ⟨uid, huid⟩
    have hfromEq : (endEdge ar q).fromNode = uid := by
      show (alookup (convAfterGates ar).last q).getD "" = uid
      rw [huid]
      rfl
    rcases hA2 (q, uid) (alookup_mem huid) with ⟨l, hl, hlb⟩
    rcases hA1 (uid, l) (alookup_mem hl) with ⟨u, hu, hul⟩
    have hvfind : findNode (convertToAppCircuitFormat ar).nodes (endIdOf q) =
        some (endNode ar q) := by
      rw [hnodes]
      rw [findNode_append_right (findNode_eq_none (fun nd hnd hc => hE nd hnd q hc))]
      exact findNode_map_mk (fun _ => rfl) (fun a b h => endIdOf_inj h) _ hq
    refine ⟨u, endNode ar q, ?_, ?_, ?_, ?_⟩
    · rw [hfromEq]
      exact hstable hu
    · exact hvfind
    · show u.layer + 1 ≤ (convAfterGates ar).maxGateLayer + 1
      rw [hul]
      omega
    · intro hc
      simp [endNode] at hc

/-- Witness for the amended C6 at the sample fixture's first edge. -/
theorem edge_layer_monotone_witness :
    ∃ u v, findNode (convertToAppCircuitFormat fixtureInput).nodes "q_start_2" = some u ∧
      findNode (convertToAppCircuitFormat fixtureInput).nodes "gate_0" = some v ∧
      u.layer + 1 ≤ v.layer ∧
      (v.type = NodeType.gate →
        ∃ e' ∈ (convertToAppCircuitFormat fixtureInput).edges, e'.toNode = "gate_0" ∧
          ∃ u', findNode (convertToAppCircuitFormat fixtureInput).nodes e'.fromNode = some u' ∧
            v.layer = u'.layer + 1) :=
  edge_layer_monotone fixtureInput (by decide)
    { name := "q2", fromNode := "q_start_2", toNode := "gate_0", qubit := "2" }
    (by decide)
